import Mathlib

/-!
Verification of the atomate2 repository slice: `atomate2/vasp/file.py`,
`atomate2/vasp/inputs.py` and `tests/vasp/conftest.py`.

File names are modelled as lists of characters (`Name`).  A directory is a
list of file names.  The helpers from `atomate2.common.file` and
`atomate2.utils` (`get_zfile`, `copy_files`, `gunzip_files`, `rename_files`,
`strip_hostname`, `FileClient`) are not part of the provided sources and are
modelled from the spec where needed; every function of the provided sources
is translated directly.
-/

set_option autoImplicit false

namespace Atomate2

/-- A file name, as a list of characters. -/
abbrev Name := List Char

/-- Converts a string literal into a `Name`. -/
def nm (s : String) : Name := s.data

/-- The characters of `"relax"`. -/
def relaxChars : Name := ['r', 'e', 'l', 'a', 'x']

/-- The characters of `".relax"`. -/
def dotRelax : Name := '.' :: relaxChars

/-- The characters of `".gz"`. -/
def gzChars : Name := ['.', 'g', 'z']

/-- Substring test: `containsSub pat s` is true when `pat` occurs
contiguously inside `s` (this is Python's `pat in s`). -/
def containsSub (pat : Name) : Name → Bool
  | [] => pat.isEmpty
  | c :: rest => pat.isPrefixOf (c :: rest) || containsSub pat rest

/-- A file name matches the glob pattern `"*.relax*"` exactly when it
contains `".relax"` as a substring (fnmatch semantics of `*`). -/
def globRelax (f : Name) : Bool := containsSub dotRelax f

/-- Attempt of the regex `.relax(\d+)` at one position of the string: one
arbitrary character, then the literal `relax`, then a greedy nonempty run of
decimal digits, which is returned. -/
def matchRelaxAt : Name → Option Name
  | [] => none
  | _ :: rest =>
    if relaxChars.isPrefixOf rest then
      let ds := (rest.drop 5).takeWhile Char.isDigit
      if ds.isEmpty then none else some ds
    else none

/-- Search of the regex `.relax(\d+)` (leftmost match), as performed by
`re.search(r".relax(\d+)", file.name)` in `get_largest_relax_extension`;
returns the digit group of the leftmost match, or `none` when the regex
does not match (Python would then raise `AttributeError` on `.group`). -/
def searchRelaxNum : Name → Option Name
  | [] => none
  | c :: rest =>
    match matchRelaxAt (c :: rest) with
    | some ds => some ds
    | none => searchRelaxNum rest

/-- Runs `searchRelaxNum` on every file of the list, failing (like the list
comprehension in the Python source, which raises at the first `None` match)
when any file has no match. -/
def searchAll : List Name → Option (List Name)
  | [] => some []
  | f :: rest =>
    match searchRelaxNum f, searchAll rest with
    | some ds, some l => some (ds :: l)
    | _, _ => none

/-- Decimal value of a digit string, Python's `int(x)`. -/
def dsVal (ds : Name) : Nat :=
  ds.foldl (fun a c => a * 10 + (c.toNat - 48)) 0

/-- Python's `max(numbers, key=lambda x: int(x))`: the first element whose
decimal value is maximal. -/
def maxByVal : List Name → Name
  | [] => []
  | n :: rest => rest.foldl (fun b x => if dsVal x > dsVal b then x else b) n

/-- Translation of `get_largest_relax_extension` (atomate2/vasp/file.py).
The directory is given by its listing; `file_client.glob(dir / "*.relax*")`
is the sublist of names containing `".relax"`.  The result is `none` when
the Python function raises (regex match failure), otherwise `some` of the
returned string. -/
def get_largest_relax_extension (listing : List Name) : Option Name :=
  let relax_files := listing.filter globRelax
  if relax_files.isEmpty then some [] else
    match searchAll relax_files with
    | none => none
    | some numbers => some (dotRelax ++ maxByVal numbers)

example : get_largest_relax_extension [nm "vasprun.xml.relax1.gz", nm "vasprun.xml.relax2.gz"] = some (nm ".relax2") := by decide

example : get_largest_relax_extension [nm "a.relax9", nm "a.relax10"] = some (nm ".relax10") := by decide

example : get_largest_relax_extension [nm "INCAR", nm "OUTCAR"] = some (nm "") := by decide

example : get_largest_relax_extension [nm "POSCAR.relax_backup"] = none := by decide

/-! ### A toolkit of substring lemmas -/

theorem isPre_iff : ∀ (p s : Name), p.isPrefixOf s = true ↔ ∃ t, s = p ++ t
  | [], s => by simp [List.isPrefixOf]
  | _ :: _, [] => by simp [List.isPrefixOf]
  | a :: p, b :: s => by
    simp only [List.isPrefixOf, Bool.and_eq_true, beq_iff_eq]
    constructor
    · rintro ⟨rfl, h⟩
      rcases (isPre_iff p s).1 h with ⟨t, rfl⟩
      exact ⟨t, rfl⟩
    · rintro ⟨t, ht⟩
      injection ht with h1 h2
      exact ⟨h1.symm, (isPre_iff p s).2 ⟨t, h2⟩⟩

theorem isPre_refl (p : Name) : p.isPrefixOf p = true :=
  (isPre_iff p p).2 ⟨[], (List.append_nil p).symm⟩

theorem containsSub_iff : ∀ (p s : Name), containsSub p s = true ↔ ∃ a b, s = a ++ p ++ b
  | p, [] => by
    simp only [containsSub, List.isEmpty_iff]
    constructor
    · rintro rfl; exact ⟨[], [], rfl⟩
    · rintro ⟨a, b, h⟩
      rcases List.append_eq_nil.1 h.symm with ⟨h1, h2⟩
      exact (List.append_eq_nil.1 h1).2
  | p, c :: s => by
    simp only [containsSub, Bool.or_eq_true]
    constructor
    · rintro (h | h)
      · rcases (isPre_iff p _).1 h with ⟨t, ht⟩
        exact ⟨[], t, ht⟩
      · rcases (containsSub_iff p s).1 h with ⟨a, b, rfl⟩
        exact ⟨c :: a, b, rfl⟩
    · rintro ⟨a, b, h⟩
      cases a with
      | nil =>
        exact Or.inl ((isPre_iff p _).2 ⟨b, by simpa using h⟩)
      | cons a0 a =>
        injection h with h1 h2
        exact Or.inr ((containsSub_iff p s).2 ⟨a, b, h2⟩)

theorem containsSub_of_parts (p a b s : Name) (h : s = a ++ p ++ b) :
    containsSub p s = true :=
  (containsSub_iff p s).2 ⟨a, b, h⟩

theorem containsSub_of_isPre (p s : Name) (h : p.isPrefixOf s = true) :
    containsSub p s = true := by
  rcases (isPre_iff p s).1 h with ⟨t, rfl⟩
  exact containsSub_of_parts p [] t _ rfl

theorem mem_of_containsSub (p s : Name) (h : containsSub p s = true) :
    ∀ c ∈ p, c ∈ s := by
  rcases (containsSub_iff p s).1 h with ⟨a, b, rfl⟩
  intro c hc
  simp [List.mem_append, hc]

theorem length_le_of_containsSub (p s : Name) (h : containsSub p s = true) :
    p.length ≤ s.length := by
  rcases (containsSub_iff p s).1 h with ⟨a, b, rfl⟩
  simp only [List.length_append]
  omega

theorem containsSub_of_inner (p x y z s : Name) (hp : p = x ++ y ++ z)
    (h : containsSub p s = true) : containsSub y s = true := by
  rcases (containsSub_iff p s).1 h with ⟨a, b, rfl⟩
  subst hp
  exact (containsSub_iff y _).2 ⟨a ++ x, z ++ b, by simp⟩

theorem isPre_append_split (p t u : Name) (h : p.isPrefixOf (t ++ u) = true) :
    p.isPrefixOf t = true ∨ ∃ r, p = t ++ r ∧ r.isPrefixOf u = true := by
  induction t generalizing p with
  | nil => exact Or.inr ⟨p, rfl, h⟩
  | cons a t ih =>
    cases p with
    | nil => exact Or.inl rfl
    | cons b p =>
      simp only [List.cons_append, List.isPrefixOf, Bool.and_eq_true, beq_iff_eq] at h
      rcases h with ⟨rfl, h⟩
      rcases ih p h with h' | ⟨r, rfl, hr⟩
      · exact Or.inl (by simp [List.isPrefixOf, h'])
      · exact Or.inr ⟨r, rfl, hr⟩

theorem drop_len_append (x y : Name) : (x ++ y).drop x.length = y := by
  induction x with
  | nil => simp
  | cons a x ih => simp [ih]

theorem take_len_append (x y : Name) : (x ++ y).take x.length = x := by
  induction x with
  | nil => simp
  | cons a x ih => simp [ih]

theorem isSuf_iff (p s : Name) : p.isSuffixOf s = true ↔ ∃ t, s = t ++ p := by
  rw [List.isSuffixOf, isPre_iff]
  constructor
  · rintro ⟨t, ht⟩
    refine ⟨t.reverse, ?_⟩
    have := congrArg List.reverse ht
    simpa using this
  · rintro ⟨t, rfl⟩
    exact ⟨t.reverse, by simp⟩

theorem containsSub_of_isSuf (p s : Name) (h : p.isSuffixOf s = true) :
    containsSub p s = true := by
  rcases (isSuf_iff p s).1 h with ⟨t, rfl⟩
  exact containsSub_of_parts p t [] _ (by simp)

theorem containsSub_append_cases (p a b : Name) (h : containsSub p (a ++ b) = true) :
    containsSub p a = true ∨ containsSub p b = true ∨
      ∃ t u, p = t ++ u ∧ t ≠ [] ∧ u ≠ [] ∧ (∃ a', a = a' ++ t) ∧
        u.isPrefixOf b = true := by
  induction a with
  | nil => exact Or.inr (Or.inl (by simpa using h))
  | cons c a ih =>
    simp only [List.cons_append, containsSub, Bool.or_eq_true] at h
    rcases h with h | h
    · rcases isPre_append_split p (c :: a) b (by simpa using h) with h' | ⟨r, rfl, hr⟩
      · exact Or.inl (containsSub_of_isPre _ _ h')
      · cases r with
        | nil =>
          exact Or.inl (containsSub_of_parts _ [] [] _ (by simp))
        | cons r0 r =>
          exact Or.inr (Or.inr ⟨c :: a, r0 :: r, rfl, by simp, by simp, ⟨[], rfl⟩, hr⟩)
    · rcases ih h with h' | h' | ⟨t, u, rfl, ht, hu, ⟨a', rfl⟩, hub⟩
      · exact Or.inl (by simp [containsSub, h'])
      · exact Or.inr (Or.inl h')
      · exact Or.inr (Or.inr ⟨t, u, rfl, ht, hu, ⟨c :: a', rfl⟩, hub⟩)

theorem straddle_mem (p t u s : Name) (hp : p = t ++ u) (ht : t ≠ []) (hu : u ≠ [])
    (hus : u.isPrefixOf s = true) :
    ∃ u0, u0 ∈ p.drop 1 ∧ s.head? = some u0 := by
  cases u with
  | nil => exact absurd rfl hu
  | cons u0 u' =>
    rcases (isPre_iff _ s).1 hus with ⟨w, rfl⟩
    refine ⟨u0, ?_, rfl⟩
    cases t with
    | nil => exact absurd rfl ht
    | cons t0 t' => simp [hp]

theorem ne_of_digit (c d : Char) (hc : c.isDigit = true) (hd : d.isDigit = false) :
    c ≠ d := by
  intro h
  subst h
  rw [hc] at hd
  cases hd

/-! ### Python's `str.replace`: replace all non-overlapping occurrences,
scanning left to right -/

/-- Fuel-based worker for `replaceAll`; the fuel is always at least the
length of the string, so the fuel-exhausted branch is never taken. -/
def replaceAllAux (pat repl : Name) : Nat → Name → Name
  | 0, s => s
  | _ + 1, [] => []
  | fuel + 1, c :: rest =>
    if pat.isPrefixOf (c :: rest) && !pat.isEmpty then
      repl ++ replaceAllAux pat repl fuel ((c :: rest).drop pat.length)
    else c :: replaceAllAux pat repl fuel rest

/-- Python's `s.replace(pat, repl)`: replace every non-overlapping
occurrence of `pat`, scanning left to right (for an empty `pat` the string
is returned unchanged; the source only replaces `".gz"` and a nonempty
relax extension). -/
def replaceAll (pat repl : Name) (s : Name) : Name :=
  replaceAllAux pat repl s.length s

theorem replaceAllAux_stable (pat repl : Name) :
    ∀ (n : Nat) (s : Name), s.length ≤ n →
      replaceAllAux pat repl n s = replaceAllAux pat repl s.length s := by
  have main : ∀ (n m : Nat) (s : Name), s.length ≤ n → s.length ≤ m →
      replaceAllAux pat repl n s = replaceAllAux pat repl m s := by
    intro n
    induction n with
    | zero =>
      intro m s hn _
      have hs : s = [] := List.length_eq_zero.1 (Nat.le_zero.1 hn)
      subst hs
      cases m <;> rfl
    | succ n ih =>
      intro m s hn hm
      cases s with
      | nil => cases m <;> rfl
      | cons c rest =>
        cases m with
        | zero => cases hm
        | succ m =>
          rw [replaceAllAux, replaceAllAux]
          by_cases hcond : (pat.isPrefixOf (c :: rest) && !pat.isEmpty) = true
          · rw [if_pos hcond, if_pos hcond]
            have hplen : 0 < pat.length := by
              rcases pat with _ | ⟨p0, pr⟩
              · rw [Bool.and_eq_true] at hcond
                cases hcond.2
              · simp
            have hlen : ((c :: rest).drop pat.length).length ≤ n := by
              rw [List.length_drop]
              simp only [List.length_cons] at hn ⊢
              omega
            have hlen2 : ((c :: rest).drop pat.length).length ≤ m := by
              rw [List.length_drop]
              simp only [List.length_cons] at hm ⊢
              omega
            rw [ih m ((c :: rest).drop pat.length) hlen hlen2]
          · rw [if_neg hcond, if_neg hcond]
            have hlen : rest.length ≤ n := by
              simp only [List.length_cons] at hn
              omega
            have hlen2 : rest.length ≤ m := by
              simp only [List.length_cons] at hm
              omega
            rw [ih m rest hlen hlen2]
  intro n s hn
  exact main n s.length s hn (Nat.le_refl _)

theorem replaceAll_cons (pat repl : Name) (c : Char) (rest : Name) :
    replaceAll pat repl (c :: rest) =
      if pat.isPrefixOf (c :: rest) && !pat.isEmpty then
        repl ++ replaceAll pat repl ((c :: rest).drop pat.length)
      else c :: replaceAll pat repl rest := by
  rw [replaceAll, show (c :: rest).length = rest.length + 1 from rfl, replaceAllAux]
  by_cases hcond : (pat.isPrefixOf (c :: rest) && !pat.isEmpty) = true
  · rw [if_pos hcond, if_pos hcond, replaceAll,
      replaceAllAux_stable pat repl rest.length ((c :: rest).drop pat.length)]
    rw [List.length_drop]
    have hplen : 0 < pat.length := by
      rcases pat with _ | ⟨p0, pr⟩
      · rw [Bool.and_eq_true] at hcond
        cases hcond.2
      · simp
    simp only [List.length_cons]
    omega
  · rw [if_neg hcond, if_neg hcond, replaceAll]

theorem replaceAll_nil (pat repl : Name) : replaceAll pat repl [] = [] := rfl

theorem replaceAll_of_not_contains (pat repl : Name) :
    ∀ s : Name, containsSub pat s = false → replaceAll pat repl s = s := by
  intro s
  induction s with
  | nil => intro _; exact replaceAll_nil pat repl
  | cons c rest ih =>
    intro h
    simp only [containsSub, Bool.or_eq_false_iff] at h
    rw [replaceAll_cons, if_neg]
    · rw [ih h.2]
    · rw [Bool.and_eq_true]
      rintro ⟨h1, _⟩
      rw [h.1] at h1
      cases h1

theorem replaceAll_append_single (pat repl b tail : Name) (hne : pat ≠ [])
    (hnoearly : ∀ a₁ a₂, b = a₁ ++ a₂ → a₂ ≠ [] →
      pat.isPrefixOf (a₂ ++ pat ++ tail) = false)
    (htail : containsSub pat tail = false) :
    replaceAll pat repl (b ++ pat ++ tail) = b ++ repl ++ tail := by
  induction b with
  | nil =>
    cases pat with
    | nil => exact absurd rfl hne
    | cons p0 pr =>
      rw [List.nil_append, List.cons_append, replaceAll_cons, if_pos]
      · rw [← List.cons_append, drop_len_append,
          replaceAll_of_not_contains _ _ _ htail]
        simp
      · rw [Bool.and_eq_true]
        exact ⟨(isPre_iff _ _).2 ⟨tail, by simp⟩, by simp⟩
  | cons c b ih =>
    rw [List.cons_append, List.cons_append, replaceAll_cons, if_neg]
    · rw [ih (fun a₁ a₂ hsplit hne2 => hnoearly (c :: a₁) a₂ (by simp [hsplit]) hne2)]
      simp
    · rw [Bool.and_eq_true]
      rintro ⟨h1, _⟩
      have := hnoearly [] (c :: b) rfl (by simp)
      rw [show (c :: b) ++ pat ++ tail = c :: (b ++ pat ++ tail) by simp] at this
      rw [this] at h1
      cases h1

theorem containsSub_cons_of (p : Name) (c : Char) (rest : Name)
    (h : containsSub p rest = true) : containsSub p (c :: rest) = true := by
  simp [containsSub, h]

theorem containsSub_cons_elim (p : Name) (c : Char) (rest : Name)
    (h : containsSub p (c :: rest) = false) : containsSub p rest = false := by
  simp only [containsSub, Bool.or_eq_false_iff] at h
  exact h.2

theorem noearly_of_head (pat : Name) (h0 : Char) (hh : pat.head? = some h0)
    (hdist : ∀ x ∈ pat.drop 1, x ≠ h0)
    (b tail : Name) (hb : containsSub pat b = false) :
    ∀ a₁ a₂, b = a₁ ++ a₂ → a₂ ≠ [] → pat.isPrefixOf (a₂ ++ pat ++ tail) = false := by
  intro a₁ a₂ hsplit hne
  by_contra hcon
  rw [Bool.not_eq_false] at hcon
  rw [List.append_assoc] at hcon
  rcases isPre_append_split pat a₂ (pat ++ tail) hcon with h | ⟨r, hr, hpre⟩
  · rcases (isPre_iff _ _).1 h with ⟨w, rfl⟩
    have := containsSub_of_parts pat a₁ w b (by rw [hsplit]; simp)
    rw [hb] at this
    cases this
  · cases r with
    | nil =>
      have : b = a₁ ++ pat ++ [] := by rw [hsplit, hr]; simp
      have hc := containsSub_of_parts pat a₁ [] b this
      rw [hb] at hc
      cases hc
    | cons r0 r' =>
      obtain ⟨u0, hu0, hhead⟩ :=
        straddle_mem pat a₂ (r0 :: r') (pat ++ tail) hr hne (by simp) hpre
      cases pat with
      | nil => cases hh
      | cons p0 pr =>
        injection hh with hh0
        rw [List.cons_append] at hhead
        simp only [List.head?_cons, Option.some.injEq] at hhead
        exact hdist u0 hu0 (hhead.symm.trans hh0)

theorem takeWhile_digits (ds t : Name) (hdig : ∀ c ∈ ds, c.isDigit = true)
    (ht : ∀ c, t.head? = some c → c.isDigit = false) :
    (ds ++ t).takeWhile Char.isDigit = ds := by
  induction ds with
  | nil =>
    cases t with
    | nil => rfl
    | cons c t' => simp [List.takeWhile, ht c rfl]
  | cons d ds ih =>
    have hd := hdig d (by simp)
    simp only [List.cons_append, List.takeWhile, hd]
    exact congrArg (d :: ·) (ih (fun c hc => hdig c (by simp [hc])))

theorem matchRelaxAt_cons (c : Char) (rest : Name) :
    matchRelaxAt (c :: rest) =
      if relaxChars.isPrefixOf rest then
        (if ((rest.drop 5).takeWhile Char.isDigit).isEmpty then none
         else some ((rest.drop 5).takeWhile Char.isDigit))
      else none := rfl

theorem searchRelaxNum_cons (c : Char) (rest : Name) :
    searchRelaxNum (c :: rest) =
      match matchRelaxAt (c :: rest) with
      | some ds => some ds
      | none => searchRelaxNum rest := rfl

theorem searchRelaxNum_shape (b ds t : Name) (hb : containsSub relaxChars b = false)
    (hds : ds ≠ []) (hdig : ∀ c ∈ ds, c.isDigit = true)
    (ht : ∀ c, t.head? = some c → c.isDigit = false) :
    searchRelaxNum (b ++ dotRelax ++ ds ++ t) = some ds := by
  induction b with
  | nil =>
    show searchRelaxNum ('.' :: (relaxChars ++ ds ++ t)) = some ds
    have hpre : relaxChars.isPrefixOf (relaxChars ++ ds ++ t) = true :=
      (isPre_iff _ _).2 ⟨ds ++ t, by rw [List.append_assoc]⟩
    have hdrop : (relaxChars ++ ds ++ t).drop 5 = ds ++ t := by
      rw [List.append_assoc]
      exact drop_len_append relaxChars (ds ++ t)
    simp only [searchRelaxNum, matchRelaxAt, hpre, if_true, List.append_assoc] at *
    rw [hdrop, takeWhile_digits ds t hdig ht]
    simp [List.isEmpty_iff, hds]
  | cons c b' ih =>
    have hb' : containsSub relaxChars b' = false := containsSub_cons_elim _ _ _ hb
    have hmain : relaxChars.isPrefixOf (b' ++ dotRelax ++ ds ++ t) = false := by
      by_contra hcon
      rw [Bool.not_eq_false] at hcon
      rw [List.append_assoc, List.append_assoc] at hcon
      rcases isPre_append_split relaxChars b' (dotRelax ++ (ds ++ t)) hcon with
        h | ⟨r, hr, hpre⟩
      · have := containsSub_of_isPre _ _ h
        rw [hb'] at this
        cases this
      · cases r with
        | nil =>
          have : relaxChars = b' := by rw [hr]; simp
          have hc := containsSub_of_parts relaxChars [] [] b' (by simp [this])
          rw [hb'] at hc
          cases hc
        | cons r0 r' =>
          cases b' with
          | nil =>
            simp only [List.nil_append] at hr
            rw [← hr] at hpre
            have : relaxChars.head? = (dotRelax ++ (ds ++ t)).head? := by
              rcases (isPre_iff _ _).1 hpre with ⟨w, hw⟩
              rw [hw]
              rfl
            simp [relaxChars, dotRelax] at this
          | cons b0 b'' =>
            obtain ⟨u0, hu0, hhead⟩ := straddle_mem relaxChars (b0 :: b'') (r0 :: r')
              (dotRelax ++ (ds ++ t)) hr (by simp) (by simp) hpre
            have : u0 = '.' := by
              simpa [dotRelax] using hhead.symm
            rw [this] at hu0
            simp [relaxChars] at hu0
    show searchRelaxNum (c :: (b' ++ dotRelax ++ ds ++ t)) = some ds
    have hnone : matchRelaxAt (c :: (b' ++ dotRelax ++ ds ++ t)) = none := by
      rw [matchRelaxAt_cons, hmain]
      rfl
    rw [searchRelaxNum_cons, hnone]
    exact ih hb'

/-! ### Properties of `searchAll`, `maxByVal` and `get_largest_relax_extension` -/

theorem searchAll_some : ∀ (l ns : List Name), searchAll l = some ns →
    List.Forall₂ (fun f ds => searchRelaxNum f = some ds) l ns := by
  intro l
  induction l with
  | nil =>
    intro ns h
    simp only [searchAll, Option.some.injEq] at h
    rw [← h]
    exact List.Forall₂.nil
  | cons f rest ih =>
    intro ns h
    simp only [searchAll] at h
    cases hf : searchRelaxNum f with
    | none => rw [hf] at h; cases h
    | some ds =>
      rw [hf] at h
      cases hr : searchAll rest with
      | none => rw [hr] at h; cases h
      | some l' =>
        rw [hr] at h
        simp only [Option.some.injEq] at h
        rw [← h]
        exact List.Forall₂.cons hf (ih l' hr)

theorem searchAll_total : ∀ l : List Name,
    (∀ f ∈ l, ∃ ds, searchRelaxNum f = some ds) → ∃ ns, searchAll l = some ns := by
  intro l
  induction l with
  | nil => intro _; exact ⟨[], rfl⟩
  | cons f rest ih =>
    intro h
    obtain ⟨ds, hds⟩ := h f (by simp)
    obtain ⟨ns, hns⟩ := ih (fun g hg => h g (by simp [hg]))
    exact ⟨ds :: ns, by simp [searchAll, hds, hns]⟩

theorem forall2_mem_left {α β : Type} {R : α → β → Prop} :
    ∀ {l : List α} {ns : List β}, List.Forall₂ R l ns →
      ∀ x ∈ l, ∃ y ∈ ns, R x y := by
  intro l ns h
  induction h with
  | nil => intro x hx; cases hx
  | cons hr _ ih =>
    intro x hx
    rcases List.mem_cons.1 hx with rfl | hx'
    · exact ⟨_, by simp, hr⟩
    · obtain ⟨y, hy, hxy⟩ := ih x hx'
      exact ⟨y, by simp [hy], hxy⟩

theorem forall2_mem_right {α β : Type} {R : α → β → Prop} :
    ∀ {l : List α} {ns : List β}, List.Forall₂ R l ns →
      ∀ y ∈ ns, ∃ x ∈ l, R x y := by
  intro l ns h
  induction h with
  | nil => intro y hy; cases hy
  | cons hr _ ih =>
    intro y hy
    rcases List.mem_cons.1 hy with rfl | hy'
    · exact ⟨_, by simp, hr⟩
    · obtain ⟨x, hx, hxy⟩ := ih y hy'
      exact ⟨x, by simp [hx], hxy⟩

theorem foldlMax_cases (rest : List Name) (acc : Name) :
    rest.foldl (fun b x => if dsVal x > dsVal b then x else b) acc = acc ∨
      rest.foldl (fun b x => if dsVal x > dsVal b then x else b) acc ∈ rest := by
  induction rest generalizing acc with
  | nil => exact Or.inl rfl
  | cons x rest ih =>
    simp only [List.foldl_cons]
    rcases ih (if dsVal x > dsVal acc then x else acc) with h | h
    · rw [h]
      by_cases hx : dsVal x > dsVal acc
      · rw [if_pos hx]; exact Or.inr (by simp)
      · rw [if_neg hx]; exact Or.inl rfl
    · exact Or.inr (by simp [h])

theorem foldlMax_ge (rest : List Name) (acc : Name) :
    dsVal acc ≤ dsVal (rest.foldl (fun b x => if dsVal x > dsVal b then x else b) acc) ∧
      ∀ x ∈ rest,
        dsVal x ≤ dsVal (rest.foldl (fun b x => if dsVal x > dsVal b then x else b) acc) := by
  induction rest generalizing acc with
  | nil => exact ⟨Nat.le_refl _, fun x hx => absurd hx (by simp)⟩
  | cons y rest ih =>
    simp only [List.foldl_cons]
    obtain ⟨h1, h2⟩ := ih (if dsVal y > dsVal acc then y else acc)
    constructor
    · refine Nat.le_trans ?_ h1
      by_cases hy : dsVal y > dsVal acc
      · rw [if_pos hy]; omega
      · rw [if_neg hy]
    · intro x hx
      rcases List.mem_cons.1 hx with rfl | hx'
      · refine Nat.le_trans ?_ h1
        by_cases hy : dsVal x > dsVal acc
        · rw [if_pos hy]
        · rw [if_neg hy]; omega
      · exact h2 x hx'

theorem maxByVal_mem (l : List Name) (h : l ≠ []) : maxByVal l ∈ l := by
  cases l with
  | nil => exact absurd rfl h
  | cons n rest =>
    rcases foldlMax_cases rest n with h' | h'
    · rw [maxByVal, h']; simp
    · rw [maxByVal]; simp [h']

theorem maxByVal_ge (l : List Name) : ∀ x ∈ l, dsVal x ≤ dsVal (maxByVal l) := by
  cases l with
  | nil => intro x hx; cases hx
  | cons n rest =>
    intro x hx
    rcases List.mem_cons.1 hx with rfl | hx'
    · exact (foldlMax_ge rest x).1
    · exact (foldlMax_ge rest n).2 x hx'

/-- The shape of a well-formed relax-suffixed file name: a `relax`-free stem,
then `".relax"`, then a nonempty run of digits, then a `relax`-free tail that
does not start with a digit (e.g. `"INCAR.relax2.gz"`). -/
def RelaxShape (f : Name) : Prop :=
  ∃ b ds t, f = b ++ dotRelax ++ ds ++ t ∧ ds ≠ [] ∧ (∀ c ∈ ds, c.isDigit = true) ∧
    containsSub relaxChars b = false ∧ (∀ c, t.head? = some c → c.isDigit = false) ∧
    containsSub relaxChars t = false

theorem relaxShape_search (f : Name) (h : RelaxShape f) :
    ∃ ds, searchRelaxNum f = some ds ∧ ds ≠ [] ∧ ∀ c ∈ ds, c.isDigit = true := by
  obtain ⟨b, ds, t, rfl, hds, hdig, hb, ht, -⟩ := h
  exact ⟨ds, searchRelaxNum_shape b ds t hb hds hdig ht, hds, hdig⟩

/-- A packaging of `RelaxShape` whose side conditions are all decidable, for
use on concrete file names. -/
theorem relaxShape_of_parts (b ds t f : Name) (hf : f = b ++ dotRelax ++ ds ++ t)
    (h : ds ≠ [] ∧ ds.all Char.isDigit = true ∧ containsSub relaxChars b = false ∧
      (∀ c ∈ t.take 1, c.isDigit = false) ∧ containsSub relaxChars t = false) :
    RelaxShape f := by
  refine ⟨b, ds, t, hf, h.1, fun c hc => ?_, h.2.2.1, fun c hc => ?_, h.2.2.2.2⟩
  · have := h.2.1
    rw [List.all_eq_true] at this
    exact this c hc
  · refine h.2.2.2.1 c ?_
    cases t with
    | nil => cases hc
    | cons x t' =>
      injection hc with hx
      simp [hx]

/-- Full characterization of `get_largest_relax_extension` on a listing
whose glob-matching files are well formed. -/
theorem gle_spec (listing : List Name)
    (hWF : ∀ f ∈ listing, globRelax f = true → RelaxShape f) :
    (listing.filter globRelax = [] → get_largest_relax_extension listing = some (nm "")) ∧
    (listing.filter globRelax ≠ [] →
      ∃ ds f, f ∈ listing ∧ globRelax f = true ∧ searchRelaxNum f = some ds ∧
        get_largest_relax_extension listing = some (dotRelax ++ ds) ∧
        ∀ g ∈ listing, globRelax g = true → ∀ ds', searchRelaxNum g = some ds' →
          dsVal ds' ≤ dsVal ds) := by
  constructor
  · intro h
    simp [get_largest_relax_extension, h, nm]
  · intro hne
    have htot : ∀ f ∈ listing.filter globRelax, ∃ ds, searchRelaxNum f = some ds := by
      intro f hf
      rw [List.mem_filter] at hf
      obtain ⟨ds, hds, -, -⟩ := relaxShape_search f (hWF f hf.1 hf.2)
      exact ⟨ds, hds⟩
    obtain ⟨ns, hns⟩ := searchAll_total _ htot
    have hf2 := searchAll_some _ _ hns
    have hnsne : ns ≠ [] := by
      intro h
      rw [h] at hf2
      have hlen := List.Forall₂.length_eq hf2
      simp only [List.length_nil] at hlen
      exact hne (List.length_eq_zero.1 hlen)
    have hgle : get_largest_relax_extension listing = some (dotRelax ++ maxByVal ns) := by
      simp only [get_largest_relax_extension]
      rw [if_neg (by simp [List.isEmpty_iff, hne]), hns]
    obtain ⟨f, hfmem, hfr⟩ := forall2_mem_right hf2 (maxByVal ns) (maxByVal_mem ns hnsne)
    rw [List.mem_filter] at hfmem
    refine ⟨maxByVal ns, f, hfmem.1, hfmem.2, hfr, hgle, ?_⟩
    intro g hg hgr ds' hds'
    obtain ⟨y, hy, hgy⟩ := forall2_mem_left hf2 g (List.mem_filter.2 ⟨hg, hgr⟩)
    rw [hds'] at hgy
    injection hgy with hyy
    rw [hyy]
    exact maxByVal_ge ns y hy

/-- C1: For every directory listing whose `"*.relax*"` files are well formed
(`RelaxShape`), `get_largest_relax_extension` returns `".relaxM"` where `M`
is the numerically largest number occurring in a `".relaxN"` part of a file
matching the glob `"*.relax*"` (under `RelaxShape`, `searchRelaxNum f` is
exactly the digit group of the unique `".relaxN"` part of `f`), the
comparison being numeric via `dsVal`; and it returns the empty string when
no file matches the glob. -/
theorem C1_largest_relax_extension (listing : List Name)
    (hWF : ∀ f ∈ listing, globRelax f = true → RelaxShape f) :
    (listing.filter globRelax = [] → get_largest_relax_extension listing = some (nm "")) ∧
    (listing.filter globRelax ≠ [] →
      ∃ ds f, f ∈ listing ∧ globRelax f = true ∧ searchRelaxNum f = some ds ∧
        get_largest_relax_extension listing = some (dotRelax ++ ds) ∧
        ∀ g ∈ listing, globRelax g = true → ∀ ds', searchRelaxNum g = some ds' →
          dsVal ds' ≤ dsVal ds) :=
  gle_spec listing hWF

/-- Witness for C1 at a concrete two-file directory. -/
theorem C1_largest_relax_extension_witness :
    (∀ f ∈ [nm "vasprun.xml.relax9.gz", nm "vasprun.xml.relax10.gz"],
      globRelax f = true → RelaxShape f) ∧
    ([nm "vasprun.xml.relax9.gz", nm "vasprun.xml.relax10.gz"].filter globRelax ≠ []) ∧
    (∃ ds f, f ∈ [nm "vasprun.xml.relax9.gz", nm "vasprun.xml.relax10.gz"] ∧
      globRelax f = true ∧ searchRelaxNum f = some ds ∧
      get_largest_relax_extension [nm "vasprun.xml.relax9.gz", nm "vasprun.xml.relax10.gz"] =
        some (dotRelax ++ ds) ∧
      ∀ g ∈ [nm "vasprun.xml.relax9.gz", nm "vasprun.xml.relax10.gz"],
        globRelax g = true → ∀ ds', searchRelaxNum g = some ds' →
          dsVal ds' ≤ dsVal ds) := by
  have hWF : ∀ f ∈ [nm "vasprun.xml.relax9.gz", nm "vasprun.xml.relax10.gz"],
      globRelax f = true → RelaxShape f := by
    intro f hf _
    rcases List.mem_cons.1 hf with rfl | hf'
    · exact relaxShape_of_parts (nm "vasprun.xml") (nm "9") (nm ".gz") _ (by decide)
        ⟨by decide, by decide, by decide, by decide, by decide⟩
    rcases List.mem_cons.1 hf' with rfl | hf''
    · exact relaxShape_of_parts (nm "vasprun.xml") (nm "10") (nm ".gz") _ (by decide)
        ⟨by decide, by decide, by decide, by decide, by decide⟩
    · cases hf''
  exact ⟨hWF, by decide, (C1_largest_relax_extension _ hWF).2 (by decide)⟩

/-! ### C5: totality of `get_largest_relax_extension` -/

/-- Test for an occurrence of `relax` at the head of `s`, immediately
followed by a decimal digit. -/
def relaxDigitAt (s : Name) : Bool :=
  relaxChars.isPrefixOf s &&
    (match s.drop 5 with
     | d :: _ => d.isDigit
     | [] => false)

/-- Test whether a name contains `"relax"` immediately followed by at least
one decimal digit. -/
def hasRelaxDigit : Name → Bool
  | [] => false
  | c :: rest => relaxDigitAt (c :: rest) || hasRelaxDigit rest

theorem hasRelaxDigit_of_search : ∀ (f ds : Name),
    searchRelaxNum f = some ds → hasRelaxDigit f = true := by
  intro f
  induction f with
  | nil => intro ds h; cases h
  | cons c rest ih =>
    intro ds h
    rw [searchRelaxNum_cons] at h
    cases hm : matchRelaxAt (c :: rest) with
    | none =>
      rw [hm] at h
      have := ih ds h
      simp [hasRelaxDigit, this]
    | some ds' =>
      rw [matchRelaxAt_cons] at hm
      by_cases hpre : relaxChars.isPrefixOf rest = true
      · rw [if_pos hpre] at hm
        have hne : ((rest.drop 5).takeWhile Char.isDigit).isEmpty = false := by
          by_contra hc
          rw [Bool.not_eq_false] at hc
          rw [if_pos hc] at hm
          cases hm
        have hdigit : relaxDigitAt rest = true := by
          rw [relaxDigitAt, hpre, Bool.true_and]
          cases hd : rest.drop 5 with
          | nil => rw [hd] at hne; cases hne
          | cons d t =>
            rw [hd] at hne
            by_cases hdig : d.isDigit = true
            · exact hdig
            · rw [Bool.not_eq_true] at hdig
              simp [List.takeWhile, hdig] at hne
        cases rest with
        | nil => simp [relaxDigitAt, List.isPrefixOf, relaxChars] at hdigit
        | cons x r' =>
          have h2 : hasRelaxDigit (x :: r') = true := by
            rw [hasRelaxDigit, hdigit]
            rfl
          rw [hasRelaxDigit, h2, Bool.or_true]
      · rw [Bool.not_eq_true] at hpre
        rw [hpre] at hm
        simp at hm

/-- C5: the regex precondition is necessary for `get_largest_relax_extension`
to return a value: whenever the function returns a string, every file that
matched the glob `"*.relax*"` contains `relax` immediately followed by a
digit; and on the directory `["POSCAR.relax_backup"]`, which violates the
precondition, the function raises (modelled by `none`) instead of returning
a string. -/
theorem C5_relax_extension_totality :
    (∀ (listing : List Name) (s : Name), get_largest_relax_extension listing = some s →
      ∀ f ∈ listing, globRelax f = true → hasRelaxDigit f = true) ∧
    get_largest_relax_extension [nm "POSCAR.relax_backup"] = none := by
  refine ⟨?_, by decide⟩
  intro listing s hgle f hf hglob
  have hfmem : f ∈ listing.filter globRelax := List.mem_filter.2 ⟨hf, hglob⟩
  simp only [get_largest_relax_extension] at hgle
  by_cases hemp : (listing.filter globRelax).isEmpty = true
  · rw [List.isEmpty_iff] at hemp
    rw [hemp] at hfmem
    cases hfmem
  · rw [if_neg hemp] at hgle
    cases hall : searchAll (listing.filter globRelax) with
    | none => rw [hall] at hgle; cases hgle
    | some ns =>
      obtain ⟨y, -, hy⟩ := forall2_mem_left (searchAll_some _ _ hall) f hfmem
      exact hasRelaxDigit_of_search f y hy

/-- Witness for C5 on a directory where the function does return. -/
theorem C5_relax_extension_totality_witness :
    get_largest_relax_extension [nm "a.relax2"] = some (nm ".relax2") ∧
    hasRelaxDigit (nm "a.relax2") = true :=
  ⟨by decide, C5_relax_extension_totality.1 [nm "a.relax2"] (nm ".relax2") (by decide)
    (nm "a.relax2") (by decide) (by decide)⟩

/-! ### atomate2/vasp/inputs.py: `write_vasp_input_set`

The Python import machinery is abstracted into an environment
`env : Name → Name → Option α` giving, for a module name and an attribute
name, the class it resolves to (or `none` when the import or the attribute
lookup fails, i.e. when `importlib` raises `ModuleNotFoundError`,
`AttributeError` or `ImportError`).  The dispatch logic of the source is
translated literally. -/

/-- The default module `"pymatgen.io.vasp.sets"` used for bare input-set
names. -/
def pmgSetsModule : Name := nm "pymatgen.io.vasp.sets"

/-- Python's `s.rsplit(".", 1)` for a string containing a dot: the part
before the last dot and the part after it. -/
def rsplitDot (s : Name) : Name × Name :=
  (((s.reverse.dropWhile (· ≠ '.')).drop 1).reverse,
   (s.reverse.takeWhile (· ≠ '.')).reverse)

/-- The module/class-name dispatch of `write_vasp_input_set`: a dotted
string is split at its last dot, a bare name is looked up in
`pymatgen.io.vasp.sets`. -/
def resolveInputSetPath (s : Name) : Name × Name :=
  if containsSub ['.'] s then rsplitDot s else (pmgSetsModule, s)

/-- The `try: getattr(importlib.import_module(module), input_set) except ...`
block of `write_vasp_input_set`: resolution through the environment, with
`ImportError` (carrying the module and class names) when it fails. -/
def resolveInputSetCls {α : Type} (env : Name → Name → Option α) (s : Name) :
    Except (Name × Name) α :=
  match env (resolveInputSetPath s).1 (resolveInputSetPath s).2 with
  | some cls => .ok cls
  | none => .error (resolveInputSetPath s)

theorem containsSub_singleton (c : Char) (s : Name) :
    containsSub [c] s = true ↔ c ∈ s := by
  rw [containsSub_iff]
  constructor
  · rintro ⟨a, b, rfl⟩
    simp
  · intro h
    obtain ⟨a, b, rfl⟩ := List.append_of_mem h
    exact ⟨a, b, by simp⟩

theorem dropWhile_head_not {α : Type} (p : α → Bool) :
    ∀ (l : List α) (c : α) (t : List α), l.dropWhile p = c :: t → p c = false := by
  intro l
  induction l with
  | nil => intro c t h; cases h
  | cons x l' ih =>
    intro c t h
    rw [List.dropWhile] at h
    by_cases hx : p x = true
    · rw [hx] at h
      exact ih c t h
    · rw [Bool.not_eq_true] at hx
      rw [hx] at h
      injection h with h1 _
      rw [← h1]
      exact hx

theorem rsplitDot_spec (s : Name) (h : containsSub ['.'] s = true) :
    s = (rsplitDot s).1 ++ '.' :: (rsplitDot s).2 ∧ '.' ∉ (rsplitDot s).2 := by
  have hmem : '.' ∈ s.reverse := by
    rw [List.mem_reverse]
    exact (containsSub_singleton '.' s).1 h
  have hsplit := List.takeWhile_append_dropWhile (p := (· ≠ '.')) (l := s.reverse)
  cases hd : s.reverse.dropWhile (· ≠ '.') with
  | nil =>
    exfalso
    rw [hd, List.append_nil] at hsplit
    have := List.mem_takeWhile_imp (by rw [hsplit]; exact hmem)
    simp at this
  | cons c t =>
    have hc : c = '.' := by
      have := dropWhile_head_not (· ≠ '.') s.reverse c t hd
      simpa using this
    subst hc
    constructor
    · have hs : s = (s.reverse.takeWhile (· ≠ '.') ++ '.' :: t).reverse := by
        have h1 : s.reverse = s.reverse.takeWhile (· ≠ '.') ++ '.' :: t := by
          rw [← hd]
          exact hsplit.symm
        rw [← h1, List.reverse_reverse]
      rw [rsplitDot, hd]
      conv_lhs => rw [hs]
      simp [List.reverse_append]
    · rw [rsplitDot]
      intro hcmem
      rw [List.mem_reverse] at hcmem
      have := List.mem_takeWhile_imp hcmem
      simp at this

/-- C3: `write_vasp_input_set` resolves the input-set class dynamically: a
string containing a dot is split at its last dot into module and class name,
a bare name is looked up in `pymatgen.io.vasp.sets`, and a failed import or
attribute lookup becomes an `ImportError` naming the module and the class. -/
theorem C3_input_set_resolution {α : Type} (env : Name → Name → Option α) (s : Name) :
    (containsSub ['.'] s = true →
      s = (resolveInputSetPath s).1 ++ '.' :: (resolveInputSetPath s).2 ∧
        '.' ∉ (resolveInputSetPath s).2) ∧
    (containsSub ['.'] s = false → resolveInputSetPath s = (pmgSetsModule, s)) ∧
    (env (resolveInputSetPath s).1 (resolveInputSetPath s).2 = none →
      resolveInputSetCls env s = .error (resolveInputSetPath s)) ∧
    (∀ cls, env (resolveInputSetPath s).1 (resolveInputSetPath s).2 = some cls →
      resolveInputSetCls env s = .ok cls) := by
  refine ⟨?_, ?_, ?_, ?_⟩
  · intro h
    rw [resolveInputSetPath, if_pos h]
    exact rsplitDot_spec s h
  · intro h
    rw [resolveInputSetPath, if_neg]
    rw [h]
    intro hc
    cases hc
  · intro h
    rw [resolveInputSetCls, h]
  · intro cls h
    rw [resolveInputSetCls, h]

/-- Witness for C3 on the dotted path `"mypackage.mymodule.InputSet"` and an
environment without that module. -/
theorem C3_input_set_resolution_witness :
    (containsSub ['.'] (nm "mypackage.mymodule.InputSet") = true ∧
      nm "mypackage.mymodule.InputSet" =
        (resolveInputSetPath (nm "mypackage.mymodule.InputSet")).1 ++
          '.' :: (resolveInputSetPath (nm "mypackage.mymodule.InputSet")).2 ∧
      '.' ∉ (resolveInputSetPath (nm "mypackage.mymodule.InputSet")).2) ∧
    resolveInputSetCls (fun _ _ => (none : Option Nat))
      (nm "mypackage.mymodule.InputSet") =
      .error (resolveInputSetPath (nm "mypackage.mymodule.InputSet")) := by
  have h := C3_input_set_resolution (fun _ _ => (none : Option Nat))
    (nm "mypackage.mymodule.InputSet")
  exact ⟨⟨by decide, h.1 (by decide)⟩, h.2.2.1 rfl⟩

/-- An input-set class, as used by `write_vasp_input_set`: a constructor
taking the structure and the input-set kwargs, and an optional `from_prev`
class method taking a directory, the structure and the kwargs (`hasattr`
is modelled by the option being `some`). -/
structure VisCls (σ κ τ : Type) where
  make : σ → κ → τ
  fromPrev : Option (Name → σ → κ → τ)

/-- Translation of `write_vasp_input_set` (atomate2/vasp/inputs.py): resolve
the class, instantiate it (through `from_prev` when requested and available,
otherwise through the constructor), then call `write_input` on the current
directory `"."` with the write kwargs.  `writeInput` abstracts
`DictSet.write_input`; the returned value is its result. -/
def write_vasp_input_set {σ κ₁ κ₂ τ ω : Type}
    (env : Name → Name → Option (VisCls σ κ₁ τ)) (writeInput : τ → Name → κ₂ → ω)
    (structure0 : σ) (input_set : Name) (input_set_kwargs : κ₁)
    (write_input_kwargs : κ₂) (from_prev : Bool) : Except (Name × Name) ω :=
  match resolveInputSetCls env input_set with
  | .error e => .error e
  | .ok cls =>
    let vis :=
      match from_prev, cls.fromPrev with
      | true, some fp => fp (nm ".") structure0 input_set_kwargs
      | _, _ => cls.make structure0 input_set_kwargs
    .ok (writeInput vis (nm ".") write_input_kwargs)

/-- C8: `write_vasp_input_set` writes the input deck by building the
input-set object from the structure (via `from_prev` exactly when
`from_prev` is true and the class has one, else via the constructor with the
input-set kwargs) and calling its `write_input` on the current directory
`"."` with the write kwargs; the returned effect is `writeInput` applied to
that object only, so the structure reaches the output only through the
input-set object. -/
theorem C8_write_input_set_calls {σ κ₁ κ₂ τ ω : Type}
    (env : Name → Name → Option (VisCls σ κ₁ τ)) (writeInput : τ → Name → κ₂ → ω)
    (structure0 : σ) (input_set : Name) (isk : κ₁) (wik : κ₂) (from_prev : Bool)
    (cls : VisCls σ κ₁ τ)
    (henv : env (resolveInputSetPath input_set).1 (resolveInputSetPath input_set).2 =
      some cls) :
    (∀ fp, from_prev = true → cls.fromPrev = some fp →
      write_vasp_input_set env writeInput structure0 input_set isk wik from_prev =
        .ok (writeInput (fp (nm ".") structure0 isk) (nm ".") wik)) ∧
    (from_prev = false ∨ cls.fromPrev = none →
      write_vasp_input_set env writeInput structure0 input_set isk wik from_prev =
        .ok (writeInput (cls.make structure0 isk) (nm ".") wik)) := by
  have hres : resolveInputSetCls env input_set = .ok cls := by
    rw [resolveInputSetCls, henv]
  constructor
  · intro fp hfp hcls
    subst hfp
    obtain ⟨mkf, fpf⟩ := cls
    obtain rfl : fpf = some fp := hcls
    rw [write_vasp_input_set, hres]
  · intro h
    obtain ⟨mkf, fpf⟩ := cls
    rcases h with rfl | hnone
    · rw [write_vasp_input_set, hres]
    · obtain rfl : fpf = none := hnone
      cases from_prev
      · rw [write_vasp_input_set, hres]
      · rw [write_vasp_input_set, hres]

/-- Witness for C8 with a concrete class over `Nat` having a `from_prev`
method. -/
theorem C8_write_input_set_calls_witness :
    (fun (_ _ : Name) => (some (VisCls.mk (fun (s : Nat) (_ : Unit) => s + 1)
        (some (fun _ s _ => s + 2)))))
      (resolveInputSetPath (nm "MPStaticSet")).1
      (resolveInputSetPath (nm "MPStaticSet")).2 =
      some (VisCls.mk (fun (s : Nat) (_ : Unit) => s + 1) (some (fun _ s _ => s + 2))) ∧
    write_vasp_input_set
      (fun _ _ => (some (VisCls.mk (fun (s : Nat) (_ : Unit) => s + 1)
        (some (fun _ s _ => s + 2)))))
      (fun v _ (_ : Unit) => v * 10) 3 (nm "MPStaticSet") () () true =
      .ok ((3 + 2) * 10) := by
  refine ⟨rfl, ?_⟩
  exact (C8_write_input_set_calls
    (fun _ _ => (some (VisCls.mk (fun (s : Nat) (_ : Unit) => s + 1)
      (some (fun _ s _ => s + 2)))))
    (fun v _ (_ : Unit) => v * 10) 3 (nm "MPStaticSet") () () true _ rfl).1
    (fun _ s _ => s + 2) rfl rfl

/-! ### tests/vasp/conftest.py: `fake_run_vasp` and its helpers

The check functions `check_incar`, `check_kpoints`, `check_poscar` and
`check_potcar` only read files and possibly raise; they are abstracted into
an oracle `ok : CheckKind → Bool` (`ok k = false` means the corresponding
check raises).  The working directory is its list of file names; the
reference `outputs` folder is a list of entries with an `is_file` flag. -/

/-- The four input checks of `fake_run_vasp`. -/
inductive CheckKind where
  | incar
  | kpoints
  | poscar
  | potcar
deriving DecidableEq

/-- The order in which `fake_run_vasp` runs the requested checks. -/
def checkOrder : List CheckKind :=
  [CheckKind.incar, CheckKind.kpoints, CheckKind.poscar, CheckKind.potcar]

/-- The file names deleted by `clear_vasp_inputs`. -/
def clearNames : List Name :=
  [nm "INCAR", nm "KPOINTS", nm "POSCAR", nm "POTCAR", nm "CHGCAR", nm "OUTCAR",
    nm "vasprun.xml"]

/-- Observable actions of `fake_run_vasp`.  `invokedVasp` is the action of
running a real VASP executable; the translation shows it is never emitted. -/
inductive FakeEvent where
  | checked (k : CheckKind)
  | clearedInputs
  | copiedOutputs
  | invokedVasp
deriving DecidableEq

/-- The four `if "x" in check_inputs: check_x(...)` statements of
`fake_run_vasp`, run in source order; returns the events of the checks that
ran and the first failing check, if any (a raise aborts the rest). -/
def runChecksAux (ci : List CheckKind) (ok : CheckKind → Bool) :
    List CheckKind → List FakeEvent × Option CheckKind
  | [] => ([], none)
  | k :: rest =>
    if k ∈ ci then
      if ok k then
        let p := runChecksAux ci ok rest
        (FakeEvent.checked k :: p.1, p.2)
      else ([FakeEvent.checked k], some k)
    else runChecksAux ci ok rest

/-- Translation of `clear_vasp_inputs`: unlink each of the seven
input-file names that exists. -/
def clear_vasp_inputs (cwd : List Name) : List Name :=
  cwd.filter (fun f => f ∉ clearNames)

/-- Translation of the module-level `copy_vasp_outputs` of conftest.py:
`shutil.copy` every regular file of the reference `outputs` folder into the
current directory (at the level of names, copying over an existing file
keeps its name). -/
def conftest_copy_vasp_outputs (outputs : List (Name × Bool)) (cwd : List Name) :
    List Name :=
  (outputs.filter (fun f => f.2)).foldl
    (fun acc f => if f.1 ∈ acc then acc else acc ++ [f.1]) cwd

/-- Translation of `fake_run_vasp`: run the requested checks in order, then
(when none raised) optionally clear the inputs and copy the reference
outputs in.  Returns the final working directory, the emitted events, and
the check that raised, if any (in which case the directory is returned as it
was). -/
def fake_run_vasp (check_inputs : List CheckKind) (clear_inputs : Bool)
    (ok : CheckKind → Bool) (cwd : List Name) (outputs : List (Name × Bool)) :
    List Name × List FakeEvent × Option CheckKind :=
  let p := runChecksAux check_inputs ok checkOrder
  match p.2 with
  | some k => (cwd, p.1, some k)
  | none =>
    let cwd1 := if clear_inputs then clear_vasp_inputs cwd else cwd
    let es1 := p.1 ++ (if clear_inputs then [FakeEvent.clearedInputs] else [])
    (conftest_copy_vasp_outputs outputs cwd1, es1 ++ [FakeEvent.copiedOutputs], none)

theorem copy_outputs_fold_mem (n : Name) :
    ∀ (l : List (Name × Bool)) (acc : List Name),
      (n ∈ l.foldl (fun acc f => if f.1 ∈ acc then acc else acc ++ [f.1]) acc ↔
        n ∈ acc ∨ n ∈ l.map (fun f => f.1)) := by
  intro l
  induction l with
  | nil => intro acc; simp
  | cons f l ih =>
    intro acc
    simp only [List.foldl_cons, List.map_cons, List.mem_cons]
    rw [ih]
    by_cases hf : f.1 ∈ acc
    · rw [if_pos hf]
      constructor
      · rintro (h | h)
        · exact Or.inl h
        · exact Or.inr (Or.inr h)
      · rintro (h | rfl | h)
        · exact Or.inl h
        · exact Or.inl hf
        · exact Or.inr h
    · rw [if_neg hf]
      simp only [List.mem_append, List.mem_singleton]
      tauto

theorem conftest_copy_mem (outputs : List (Name × Bool)) (cwd : List Name) (n : Name) :
    n ∈ conftest_copy_vasp_outputs outputs cwd ↔
      n ∈ cwd ∨ n ∈ (outputs.filter (fun f => f.2)).map (fun f => f.1) :=
  copy_outputs_fold_mem n _ cwd

theorem runChecks_events (ci : List CheckKind) (ok : CheckKind → Bool) :
    ∀ ks : List CheckKind, ∀ e ∈ (runChecksAux ci ok ks).1, ∃ k, e = FakeEvent.checked k := by
  intro ks
  induction ks with
  | nil => intro e he; cases he
  | cons k rest ih =>
    intro e he
    rw [runChecksAux] at he
    by_cases hk : k ∈ ci
    · rw [if_pos hk] at he
      by_cases hok : ok k = true
      · rw [if_pos hok] at he
        rcases List.mem_cons.1 he with rfl | he'
        · exact ⟨k, rfl⟩
        · exact ih e he'
      · rw [if_neg hok] at he
        rcases List.mem_cons.1 he with rfl | he'
        · exact ⟨k, rfl⟩
        · cases he'
    · rw [if_neg hk] at he
      exact ih e he

theorem runChecks_fail (ci : List CheckKind) (ok : CheckKind → Bool) :
    ∀ (ks : List CheckKind) (k : CheckKind), (runChecksAux ci ok ks).2 = some k →
      k ∈ ci ∧ ok k = false := by
  intro ks
  induction ks with
  | nil => intro k h; cases h
  | cons k0 rest ih =>
    intro k h
    rw [runChecksAux] at h
    by_cases hk : k0 ∈ ci
    · rw [if_pos hk] at h
      by_cases hok : ok k0 = true
      · rw [if_pos hok] at h
        exact ih k h
      · rw [if_neg hok] at h
        injection h with h1
        rw [← h1]
        exact ⟨hk, Bool.eq_false_iff.2 hok⟩
    · rw [if_neg hk] at h
      exact ih k h

theorem fake_run_vasp_of_fail (ci : List CheckKind) (clear : Bool)
    (ok : CheckKind → Bool) (cwd : List Name) (outputs : List (Name × Bool))
    (k : CheckKind) (hfail : (runChecksAux ci ok checkOrder).2 = some k) :
    fake_run_vasp ci clear ok cwd outputs =
      (cwd, (runChecksAux ci ok checkOrder).1, some k) := by
  simp only [fake_run_vasp, hfail]

theorem fake_run_vasp_of_pass (ci : List CheckKind) (clear : Bool)
    (ok : CheckKind → Bool) (cwd : List Name) (outputs : List (Name × Bool))
    (hfail : (runChecksAux ci ok checkOrder).2 = none) :
    fake_run_vasp ci clear ok cwd outputs =
      (conftest_copy_vasp_outputs outputs (if clear then clear_vasp_inputs cwd else cwd),
        ((runChecksAux ci ok checkOrder).1 ++
          (if clear then [FakeEvent.clearedInputs] else [])) ++ [FakeEvent.copiedOutputs],
        none) := by
  simp only [fake_run_vasp, hfail]

/-- C7: `fake_run_vasp` never emits the action of invoking a VASP
executable; when all configured checks pass it copies every regular file of
the reference `outputs` folder into the current directory, so the directory
afterwards holds exactly those reference output files plus the previous
files that were not cleared. -/
theorem C7_fake_run_vasp_copies_outputs (ci : List CheckKind) (clear : Bool)
    (ok : CheckKind → Bool) (cwd : List Name) (outputs : List (Name × Bool))
    (h : (fake_run_vasp ci clear ok cwd outputs).2.2 = none) :
    (∀ n, n ∈ (fake_run_vasp ci clear ok cwd outputs).1 ↔
      (n ∈ (outputs.filter (fun f => f.2)).map (fun f => f.1) ∨
        (n ∈ cwd ∧ ¬(clear = true ∧ n ∈ clearNames)))) ∧
    FakeEvent.invokedVasp ∉ (fake_run_vasp ci clear ok cwd outputs).2.1 := by
  cases hfail : (runChecksAux ci ok checkOrder).2 with
  | some k =>
    rw [fake_run_vasp_of_fail ci clear ok cwd outputs k hfail] at h
    cases h
  | none =>
    rw [fake_run_vasp_of_pass ci clear ok cwd outputs hfail]
    constructor
    · intro n
      rw [conftest_copy_mem]
      cases clear with
      | true =>
        rw [if_pos rfl]
        simp only [clear_vasp_inputs, List.mem_filter, decide_not, Bool.not_eq_true',
          decide_eq_false_iff_not]
        tauto
      | false =>
        rw [if_neg (by simp)]
        simp only [Bool.false_eq_true, false_and, not_false_iff, and_true]
        tauto
    · intro hmem
      simp only [List.mem_append] at hmem
      rcases hmem with (hmem' | hmem') | hmem'
      · obtain ⟨k, hk⟩ := runChecks_events ci ok checkOrder _ hmem'
        cases hk
      · cases clear with
        | true => simp at hmem'
        | false => simp at hmem'
      · simp at hmem'

/-- Witness for C7 with all checks passing and one non-file entry in the
reference outputs folder. -/
theorem C7_fake_run_vasp_copies_outputs_witness :
    ((fake_run_vasp checkOrder true (fun _ => true) [nm "INCAR", nm "custodian.json"]
      [(nm "OUTCAR", true), (nm "sub", false)]).2.2 = none) ∧
    ((nm "OUTCAR") ∈ (fake_run_vasp checkOrder true (fun _ => true)
      [nm "INCAR", nm "custodian.json"] [(nm "OUTCAR", true), (nm "sub", false)]).1 ↔
      ((nm "OUTCAR") ∈ ([(nm "OUTCAR", true), (nm "sub", false)].filter
          (fun f => f.2)).map (fun f => f.1) ∨
        ((nm "OUTCAR") ∈ [nm "INCAR", nm "custodian.json"] ∧
          ¬(true = true ∧ (nm "OUTCAR") ∈ clearNames)))) ∧
    FakeEvent.invokedVasp ∉ (fake_run_vasp checkOrder true (fun _ => true)
      [nm "INCAR", nm "custodian.json"] [(nm "OUTCAR", true), (nm "sub", false)]).2.1 := by
  refine ⟨by decide, ?_, ?_⟩
  · exact (C7_fake_run_vasp_copies_outputs checkOrder true (fun _ => true)
      [nm "INCAR", nm "custodian.json"] [(nm "OUTCAR", true), (nm "sub", false)]
      (by decide)).1 (nm "OUTCAR")
  · exact (C7_fake_run_vasp_copies_outputs checkOrder true (fun _ => true)
      [nm "INCAR", nm "custodian.json"] [(nm "OUTCAR", true), (nm "sub", false)]
      (by decide)).2

/-- C9: `fake_run_vasp` performs all requested checks before clearing inputs
or copying outputs: when a check raises, the working directory is returned
unchanged and neither the clearing action nor the copying action was
emitted; moreover the raising check was requested and failing. -/
theorem C9_fake_run_vasp_atomicity (ci : List CheckKind) (clear : Bool)
    (ok : CheckKind → Bool) (cwd : List Name) (outputs : List (Name × Bool))
    (k : CheckKind) (h : (fake_run_vasp ci clear ok cwd outputs).2.2 = some k) :
    (fake_run_vasp ci clear ok cwd outputs).1 = cwd ∧
    FakeEvent.clearedInputs ∉ (fake_run_vasp ci clear ok cwd outputs).2.1 ∧
    FakeEvent.copiedOutputs ∉ (fake_run_vasp ci clear ok cwd outputs).2.1 ∧
    k ∈ ci ∧ ok k = false := by
  cases hfail : (runChecksAux ci ok checkOrder).2 with
  | none =>
    rw [fake_run_vasp_of_pass ci clear ok cwd outputs hfail] at h
    cases h
  | some k' =>
    rw [fake_run_vasp_of_fail ci clear ok cwd outputs k' hfail] at h ⊢
    obtain rfl : k' = k := Option.some.inj h
    refine ⟨rfl, ?_, ?_, runChecks_fail ci ok checkOrder _ hfail⟩
    · intro hmem
      obtain ⟨k2, hk2⟩ := runChecks_events ci ok checkOrder _ hmem
      cases hk2
    · intro hmem
      obtain ⟨k2, hk2⟩ := runChecks_events ci ok checkOrder _ hmem
      cases hk2

/-- Witness for C9 with a failing KPOINTS check. -/
theorem C9_fake_run_vasp_atomicity_witness :
    ((fake_run_vasp checkOrder true (fun k => decide (k ≠ CheckKind.kpoints))
      [nm "INCAR", nm "KPOINTS"] [(nm "OUTCAR", true)]).2.2 = some CheckKind.kpoints) ∧
    (fake_run_vasp checkOrder true (fun k => decide (k ≠ CheckKind.kpoints))
      [nm "INCAR", nm "KPOINTS"] [(nm "OUTCAR", true)]).1 = [nm "INCAR", nm "KPOINTS"] ∧
    FakeEvent.clearedInputs ∉ (fake_run_vasp checkOrder true
      (fun k => decide (k ≠ CheckKind.kpoints))
      [nm "INCAR", nm "KPOINTS"] [(nm "OUTCAR", true)]).2.1 := by
  have h := C9_fake_run_vasp_atomicity checkOrder true
    (fun k => decide (k ≠ CheckKind.kpoints)) [nm "INCAR", nm "KPOINTS"]
    [(nm "OUTCAR", true)] CheckKind.kpoints (by decide)
  exact ⟨by decide, h.1, h.2.1⟩

/-! ### atomate2/vasp/file.py: `copy_vasp_outputs`

The helpers `get_zfile`, `copy_files`, `gunzip_files`, `rename_files` and
`strip_hostname` belong to `atomate2.common.file` / `atomate2.utils`, which
are not part of the provided sources; they are modelled from the spec.  The
state of the destination (current) directory, initially empty, is a list of
entries `(current name, source file it was copied from)`. -/

/-- The four always-required VASP output files of `copy_vasp_outputs`. -/
def coreBases : List Name := [nm "INCAR", nm "OUTCAR", nm "CONTCAR", nm "vasprun.xml"]

/-- Modelled from the spec: `get_zfile` of `atomate2.common.file` (not in the
provided sources) returns the entry of the directory listing matching the
given base name either exactly or with a `".gz"` gzip extension, and `none`
when no entry matches (the caller treats `none` as `FileNotFoundError` when
the file is required). -/
def get_zfile (listing : List Name) (name : Name) : Option Name :=
  listing.find? (fun f => decide (f = name) || decide (f = name ++ gzChars))

/-- Exceptions `copy_vasp_outputs` can raise: the `AttributeError` of a
failed regex match in `get_largest_relax_extension`, the
`FileNotFoundError` of a missing required file in `get_zfile`, the explicit
`FileNotFoundError("Could not find POTCAR file to copy.")`, and the
`FileNotFoundError` of `rename_files` without `allow_missing`. -/
inductive CopyErr where
  | attrError
  | fileNotFound (name : Name)
  | potcarNotFound
  | renameNotFound (name : Name)
deriving DecidableEq

/-- Which exceptions are `FileNotFoundError`s (all but the regex
`AttributeError`). -/
def CopyErr.isFNF : CopyErr → Bool
  | attrError => false
  | fileNotFound _ => true
  | potcarNotFound => true
  | renameNotFound _ => true

/-- The list comprehension
`[get_zfile(directory_listing, r + relax_ext) for r in files]`, raising at
the first missing file. -/
def requiredVaspFiles (listing : List Name) (ext : Name) :
    List Name → Except CopyErr (List Name)
  | [] => .ok []
  | b :: rest =>
    match get_zfile listing (b ++ ext) with
    | none => .error (.fileNotFound (b ++ ext))
    | some f =>
      match requiredVaspFiles listing ext rest with
      | .error e => .error e
      | .ok fs => .ok (f :: fs)

/-- Modelled from the spec: gunzipping a copied file (gunzip_files of
`atomate2.common.file`) strips a trailing `".gz"` from its name. -/
def gunzipName (f : Name) : Name :=
  if gzChars.isSuffixOf f then f.take (f.length - 3) else f

/-- Modelled from the spec: one renaming step of `rename_files` with
`allow_missing=True`: when a file named `old` exists it is renamed to `new`
(overwriting an existing `new`, as `os.rename` does); renaming a file to its
own name is a no-op. -/
def renameOne (dest : List (Name × Name)) (old new : Name) : List (Name × Name) :=
  if old = new then dest
  else if dest.any (fun e => decide (e.1 = old)) then
    (dest.filter (fun e => !decide (e.1 = new))).map
      (fun e => if e.1 = old then (new, e.2) else e)
  else dest

/-- One insertion into a Python dict (last value wins, first insertion
position kept), used for the `files_to_rename` dict comprehension. -/
def dictInsert (m : List (Name × Name)) (kv : Name × Name) : List (Name × Name) :=
  if m.any (fun e => decide (e.1 = kv.1)) then
    m.map (fun e => if e.1 = kv.1 then kv else e)
  else m ++ [kv]

/-- The dict comprehension
`{k.name.replace(".gz", ""): k.name.replace(relax_ext, "").replace(".gz", "") for k in all_files}`. -/
def buildRenameMap (ext : Name) (ks : List Name) : List (Name × Name) :=
  ks.foldl (fun m k =>
    dictInsert m (replaceAll gzChars [] k, replaceAll gzChars [] (replaceAll ext [] k))) []

/-- Result of a successful `copy_vasp_outputs`: the source files that were
copied, and the final destination directory as entries
`(current name, source file name)`. -/
structure CopyResult where
  copied : List Name
  dest : List (Name × Name)
deriving DecidableEq

/-- The three optional files looked up by `copy_vasp_outputs` (POTCAR files
never carry the relax extension, KPOINTS files do). -/
def optionalNamesFor (ext : Name) : List Name :=
  [nm "POTCAR", nm "POTCAR.spec", nm "KPOINTS" ++ ext]

/-- Translation of `copy_vasp_outputs` (atomate2/vasp/file.py) on a source
directory listing: compute the largest relax extension, collect the required
files (INCAR, OUTCAR, CONTCAR, vasprun.xml and the additional files, all
with the extension) and the optional files (POTCAR, POTCAR.spec,
KPOINTS+ext), fail when no POTCAR-type file was found, copy the selected
files, gunzip them, strip the relax extension by renaming, and finally
rename CONTCAR to POSCAR when requested. -/
def copy_vasp_outputs (listing additional : List Name) (contcar_to_poscar : Bool) :
    Except CopyErr CopyResult :=
  match get_largest_relax_extension listing with
  | none => .error .attrError
  | some relax_ext =>
    match requiredVaspFiles listing relax_ext (coreBases ++ additional) with
    | .error e => .error e
    | .ok required =>
      let optional := (optionalNamesFor relax_ext).filterMap (get_zfile listing)
      if optional.all (fun f => !containsSub (nm "POTCAR") f) then
        .error .potcarNotFound
      else
        let copied := required ++ optional
        let dest1 := copied.map (fun f => (gunzipName f, f))
        let dest2 :=
          if relax_ext.isEmpty then dest1
          else (buildRenameMap relax_ext (optional ++ required)).foldl
            (fun d p => renameOne d p.1 p.2) dest1
        if contcar_to_poscar then
          if dest2.any (fun e => decide (e.1 = nm "CONTCAR")) then
            .ok ⟨copied, renameOne dest2 (nm "CONTCAR") (nm "POSCAR")⟩
          else .error (.renameNotFound (nm "CONTCAR"))
        else .ok ⟨copied, dest2⟩

/-- Modelled from the spec: `strip_hostname` of `atomate2.utils.path` (not
in the provided sources) removes a leading `"host:"` component from a path,
returning the part after the first colon; a path without a colon is
returned unchanged. -/
def strip_hostname (s : Name) : Name :=
  if containsSub [':'] s then (s.dropWhile (· ≠ ':')).drop 1 else s

/-- `copy_vasp_outputs` with hosts: the filesystem `fs` gives the listing of
a directory on a host (`none` is the local filesystem).  The source code
strips the hostname from `src_dir` first (`src_dir = strip_hostname(src_dir)`
with a `TODO: Handle hostnames properly.`) and performs every source-side
operation (`glob`, `listdir`, `copy_files`) against `src_host`. -/
def copy_vasp_outputs_hosted (fs : Option Name → Name → List Name) (src_dir : Name)
    (src_host : Option Name) (additional : List Name) (contcar_to_poscar : Bool) :
    Except CopyErr CopyResult :=
  copy_vasp_outputs (fs src_host (strip_hostname src_dir)) additional contcar_to_poscar

/-! ### Selection lemmas for `copy_vasp_outputs` -/

theorem get_zfile_eq (listing : List Name) (n f : Name) (h : get_zfile listing n = some f) :
    f ∈ listing ∧ (f = n ∨ f = n ++ gzChars) := by
  refine ⟨List.mem_of_find?_eq_some h, ?_⟩
  have := List.find?_some h
  simpa using this

theorem requiredVaspFiles_ok (listing : List Name) (ext : Name) : ∀ (bs req : List Name),
    requiredVaspFiles listing ext bs = .ok req →
    List.Forall₂ (fun b f => get_zfile listing (b ++ ext) = some f) bs req := by
  intro bs
  induction bs with
  | nil =>
    intro req h
    simp only [requiredVaspFiles, Except.ok.injEq] at h
    rw [← h]
    exact List.Forall₂.nil
  | cons b rest ih =>
    intro req h
    rw [requiredVaspFiles] at h
    cases hz : get_zfile listing (b ++ ext) with
    | none => rw [hz] at h; cases h
    | some f =>
      rw [hz] at h
      cases hr : requiredVaspFiles listing ext rest with
      | error e => rw [hr] at h; cases h
      | ok fs =>
        rw [hr] at h
        simp only [Except.ok.injEq] at h
        rw [← h]
        exact List.Forall₂.cons hz (ih fs hr)

theorem requiredVaspFiles_total (listing : List Name) (ext : Name) : ∀ bs : List Name,
    (∀ b ∈ bs, (get_zfile listing (b ++ ext)).isSome = true) →
    ∃ req, requiredVaspFiles listing ext bs = .ok req := by
  intro bs
  induction bs with
  | nil => intro _; exact ⟨[], rfl⟩
  | cons b rest ih =>
    intro h
    have hb := h b (by simp)
    cases hz : get_zfile listing (b ++ ext) with
    | none => rw [hz] at hb; cases hb
    | some f =>
      obtain ⟨req, hreq⟩ := ih (fun b' hb' => h b' (by simp [hb']))
      exact ⟨f :: req, by rw [requiredVaspFiles, hz, hreq]⟩

theorem requiredVaspFiles_err (listing : List Name) (ext : Name) : ∀ bs : List Name,
    (∃ b ∈ bs, get_zfile listing (b ++ ext) = none) →
    ∃ n, requiredVaspFiles listing ext bs = .error (.fileNotFound n) := by
  intro bs
  induction bs with
  | nil => rintro ⟨b, hb, -⟩; cases hb
  | cons b rest ih =>
    rintro ⟨b0, hb0, hz0⟩
    cases hz : get_zfile listing (b ++ ext) with
    | none => exact ⟨b ++ ext, by rw [requiredVaspFiles, hz]⟩
    | some f =>
      rcases List.mem_cons.1 hb0 with rfl | hb0'
      · rw [hz0] at hz; cases hz
      · obtain ⟨n, hn⟩ := ih ⟨b0, hb0', hz0⟩
        exact ⟨n, by rw [requiredVaspFiles, hz, hn]⟩

/-- Shape of the value of `get_largest_relax_extension`: empty, or a dot,
`relax`, and a nonempty digit string. -/
def ExtShape (ext : Name) : Prop :=
  ext = [] ∨ ∃ ds, ext = dotRelax ++ ds ∧ ds ≠ [] ∧ ∀ c ∈ ds, c.isDigit = true

theorem gle_ExtShape (listing : List Name)
    (hWF : ∀ f ∈ listing, globRelax f = true → RelaxShape f) (ext : Name)
    (h : get_largest_relax_extension listing = some ext) : ExtShape ext := by
  by_cases hemp : listing.filter globRelax = []
  · have := (gle_spec listing hWF).1 hemp
    rw [h] at this
    exact Or.inl ((Option.some.inj this).trans (by decide))
  · obtain ⟨ds, f, hf, hglob, hsearch, hgle, -⟩ := (gle_spec listing hWF).2 hemp
    rw [h] at hgle
    obtain rfl : ext = dotRelax ++ ds := Option.some.inj hgle
    obtain ⟨ds', hds', hne, hdig⟩ := relaxShape_search f (hWF f hf hglob)
    rw [hsearch] at hds'
    obtain rfl : ds = ds' := Option.some.inj hds'.symm |>.symm
    exact Or.inr ⟨ds, rfl, hne, hdig⟩

/-- A clean base name: free of `relax` and of `".gz"`. -/
def CleanB (b : Name) : Prop :=
  containsSub relaxChars b = false ∧ containsSub gzChars b = false

theorem containsSub_relax_of_ext (ds s : Name)
    (h : containsSub (dotRelax ++ ds) s = true) : containsSub relaxChars s = true :=
  containsSub_of_inner (dotRelax ++ ds) ['.'] relaxChars ds s rfl h

theorem ext_no_gz (ds : Name) (hdig : ∀ c ∈ ds, c.isDigit = true) :
    containsSub gzChars (dotRelax ++ ds) = false := by
  by_contra h
  rw [Bool.not_eq_false] at h
  have hg : 'g' ∈ dotRelax ++ ds := mem_of_containsSub _ _ h 'g' (by decide)
  rcases List.mem_append.1 hg with hg' | hg'
  · revert hg'
    decide
  · exact ne_of_digit 'g' 'g' (hdig 'g' hg') (by decide) rfl

theorem straddle_free_of_head (p c : Name)
    (h : ∀ u0 ∈ p.drop 1, ∀ c0, c.head? = some c0 → u0 ≠ c0) :
    ∀ t u, p = t ++ u → t ≠ [] → u ≠ [] → u.isPrefixOf c = false := by
  intro t u hp ht hu
  by_contra hcon
  rw [Bool.not_eq_false] at hcon
  obtain ⟨u0, hu0, hhead⟩ := straddle_mem p t u c hp ht hu hcon
  exact h u0 hu0 u0 hhead rfl

theorem containsSub_append_free (p a c : Name) (ha : containsSub p a = false)
    (hc : containsSub p c = false)
    (hstraddle : ∀ t u, p = t ++ u → t ≠ [] → u ≠ [] → u.isPrefixOf c = false) :
    containsSub p (a ++ c) = false := by
  by_contra h
  rw [Bool.not_eq_false] at h
  rcases containsSub_append_cases p a c h with h' | h' | ⟨t, u, hp, ht, hu, -, hub⟩
  · rw [ha] at h'; cases h'
  · rw [hc] at h'; cases h'
  · rw [hstraddle t u hp ht hu] at hub
    cases hub

theorem gz_free_append_ext (b ds : Name) (hb : containsSub gzChars b = false)
    (hdig : ∀ c ∈ ds, c.isDigit = true) :
    containsSub gzChars (b ++ (dotRelax ++ ds)) = false := by
  refine containsSub_append_free _ _ _ hb (ext_no_gz ds hdig)
    (straddle_free_of_head _ _ ?_)
  intro u0 hu0 c0 hc0
  have hdot : c0 = '.' := by
    simpa [dotRelax] using hc0.symm
  subst hdot
  revert u0
  decide

theorem relax_free_append_gz (b : Name) (hb : containsSub relaxChars b = false) :
    containsSub relaxChars (b ++ gzChars) = false := by
  refine containsSub_append_free _ _ _ hb (by decide)
    (straddle_free_of_head _ _ ?_)
  intro u0 hu0 c0 hc0
  have hdot : c0 = '.' := by
    simpa [gzChars] using hc0.symm
  subst hdot
  revert u0
  decide

/-- A file found by `get_zfile` under a gz-free search name gunzips back to
the search name, and `".gz"`-replacement also yields the search name. -/
theorem sel_names (listing : List Name) (n k : Name) (hgz : containsSub gzChars n = false)
    (h : get_zfile listing n = some k) :
    gunzipName k = n ∧ replaceAll gzChars [] k = n := by
  obtain ⟨-, hk | hk⟩ := get_zfile_eq listing n k h
  · subst hk
    constructor
    · rw [gunzipName, if_neg]
      intro hsuf
      rw [containsSub_of_isSuf _ _ hsuf] at hgz
      cases hgz
    · exact replaceAll_of_not_contains _ _ _ hgz
  · subst hk
    constructor
    · rw [gunzipName, if_pos ((isSuf_iff _ _).2 ⟨n, rfl⟩)]
      have hlen : (n ++ gzChars).length - 3 = n.length := by
        simp [gzChars]
      rw [hlen, take_len_append]
    · have hne : gzChars ≠ [] := by decide
      have hnoearly := noearly_of_head gzChars '.' rfl (by decide) n [] hgz
      have := replaceAll_append_single gzChars [] n [] hne hnoearly (by decide)
      simpa using this

theorem ext_tail_no_dot (ds : Name) (hdig : ∀ c ∈ ds, c.isDigit = true) :
    ∀ x ∈ (dotRelax ++ ds).drop 1, x ≠ '.' := by
  intro x hx
  have hdrop : (dotRelax ++ ds).drop 1 = relaxChars ++ ds := rfl
  rw [hdrop] at hx
  rcases List.mem_append.1 hx with hx' | hx'
  · simp only [relaxChars, List.mem_cons, List.not_mem_nil, or_false] at hx'
    rcases hx' with rfl | rfl | rfl | rfl | rfl <;> decide
  · exact ne_of_digit x '.' (hdig x hx') (by decide)

theorem ext_free_of_relax_free (ds s : Name) (hs : containsSub relaxChars s = false) :
    containsSub (dotRelax ++ ds) s = false := by
  by_contra h
  rw [Bool.not_eq_false] at h
  rw [containsSub_relax_of_ext ds s h] at hs
  cases hs

theorem replaceAll_gz_append (b : Name) (hb : containsSub gzChars b = false) :
    replaceAll gzChars [] (b ++ gzChars) = b := by
  have := replaceAll_append_single gzChars [] b [] (by decide)
    (noearly_of_head gzChars '.' rfl (by decide) b [] hb) (by decide)
  simpa using this

/-- Value of `k.name.replace(relax_ext, "").replace(".gz", "")` for a file
selected by `get_zfile` under search name `b ++ e`, where `b` is clean and
`e` is the relax extension or empty: the bare base `b`. -/
theorem sel_val (listing : List Name) (ds b e k : Name) (hb : CleanB b)
    (hds : ds ≠ []) (hdig : ∀ c ∈ ds, c.isDigit = true)
    (he : e = dotRelax ++ ds ∨ e = [])
    (h : get_zfile listing (b ++ e) = some k) :
    replaceAll gzChars [] (replaceAll (dotRelax ++ ds) [] k) = b := by
  have hextne : dotRelax ++ ds ≠ [] := by simp [dotRelax]
  have hextnil : containsSub (dotRelax ++ ds) [] = false := by
    simp [containsSub, dotRelax]
  have hnoearly : ∀ tail a₁ a₂, b = a₁ ++ a₂ → a₂ ≠ [] →
      (dotRelax ++ ds).isPrefixOf (a₂ ++ (dotRelax ++ ds) ++ tail) = false :=
    fun tail => noearly_of_head (dotRelax ++ ds) '.' rfl (ext_tail_no_dot ds hdig) b tail
      (ext_free_of_relax_free ds b hb.1)
  obtain ⟨-, hk | hk⟩ := get_zfile_eq _ _ _ h
  · subst hk
    rcases he with rfl | rfl
    · have h1 : replaceAll (dotRelax ++ ds) [] (b ++ (dotRelax ++ ds)) = b := by
        have := replaceAll_append_single (dotRelax ++ ds) [] b [] hextne
          (hnoearly []) hextnil
        simpa using this
      rw [h1, replaceAll_of_not_contains _ _ _ hb.2]
    · rw [List.append_nil]
      rw [replaceAll_of_not_contains _ _ _ (ext_free_of_relax_free ds b hb.1),
        replaceAll_of_not_contains _ _ _ hb.2]
  · subst hk
    rcases he with rfl | rfl
    · have hassoc : b ++ (dotRelax ++ ds) ++ gzChars = b ++ (dotRelax ++ ds) ++ gzChars :=
        rfl
      have htail : containsSub (dotRelax ++ ds) gzChars = false := by
        by_contra hcon
        rw [Bool.not_eq_false] at hcon
        have hlen := length_le_of_containsSub _ _ hcon
        rw [List.length_append] at hlen
        have h6 : dotRelax.length = 6 := rfl
        have h3 : gzChars.length = 3 := rfl
        rw [h6, h3] at hlen
        have hpos : 0 < ds.length := List.length_pos.mpr hds
        omega
      have h1 : replaceAll (dotRelax ++ ds) [] (b ++ (dotRelax ++ ds) ++ gzChars) =
          b ++ gzChars := by
        have := replaceAll_append_single (dotRelax ++ ds) [] b gzChars hextne
          (hnoearly gzChars) htail
        simpa using this
      rw [h1, replaceAll_gz_append b hb.2]
    · rw [List.append_nil]
      rw [replaceAll_of_not_contains _ _ _
        (ext_free_of_relax_free ds (b ++ gzChars) (relax_free_append_gz b hb.1))]
      exact replaceAll_gz_append b hb.2

/-- The `".gz"`-stripped name of a selected file is its search name. -/
theorem sel_key (listing : List Name) (ds b e k : Name) (hb : CleanB b)
    (hdig : ∀ c ∈ ds, c.isDigit = true)
    (he : e = dotRelax ++ ds ∨ e = [])
    (h : get_zfile listing (b ++ e) = some k) :
    gunzipName k = b ++ e ∧ replaceAll gzChars [] k = b ++ e := by
  refine sel_names listing (b ++ e) k ?_ h
  rcases he with rfl | rfl
  · exact gz_free_append_ext b ds hb.2 hdig
  · rw [List.append_nil]
    exact hb.2

/-! ### The renaming pass -/

theorem renameOne_map (ks : List Name) (c : Name → Name) (old new : Name)
    (hne : old ≠ new)
    (hex : ∃ k ∈ ks, c k = old)
    (hnew : ∀ k ∈ ks, c k ≠ new) :
    renameOne (ks.map (fun k => (c k, k))) old new =
      ks.map (fun k => (if c k = old then new else c k, k)) := by
  rw [renameOne, if_neg hne, if_pos]
  · rw [List.filter_eq_self.mpr, List.map_map]
    · apply List.map_congr_left
      intro k hk
      simp only [Function.comp]
      by_cases hck : c k = old
      · rw [if_pos hck, if_pos hck]
      · rw [if_neg hck, if_neg hck]
    · intro e he
      obtain ⟨k, hkks, rfl⟩ := List.mem_map.1 he
      simp [hnew k hkks]
  · obtain ⟨k, hkks, hck⟩ := hex
    rw [List.any_eq_true]
    exact ⟨(c k, k), List.mem_map.2 ⟨k, hkks, rfl⟩, by simp [hck]⟩

theorem if_mem_append_one {α : Type} (done : List Name) (k k0 : Name) (hkk0 : k ≠ k0)
    (a b : α) : (if k ∈ done ++ [k0] then a else b) = (if k ∈ done then a else b) := by
  by_cases hkd : k ∈ done
  · rw [if_pos hkd, if_pos (List.mem_append.2 (Or.inl hkd))]
  · rw [if_neg hkd, if_neg]
    intro hcon
    rcases List.mem_append.1 hcon with h | h
    · exact hkd h
    · rw [List.mem_singleton] at h
      exact hkk0 h

theorem renameAll_spec (key val : Name → Name) (ks : List Name)
    (hA : ∀ k ∈ ks, ∀ k' ∈ ks, key k = key k' → k = k')
    (hB : ∀ k ∈ ks, ∀ k' ∈ ks, k ≠ k' → val k ≠ key k')
    (hC : ∀ k ∈ ks, ∀ k' ∈ ks, val k = val k' → k = k') :
    ∀ (order done : List Name), (done ++ order).Nodup →
      (∀ k, k ∈ done ++ order ↔ k ∈ ks) →
      ((order.map (fun k => (key k, val k))).foldl (fun d p => renameOne d p.1 p.2)
        (ks.map (fun k => (if k ∈ done then val k else key k, k)))) =
      ks.map (fun k => (if k ∈ done ++ order then val k else key k, k)) := by
  intro order
  induction order with
  | nil =>
    intro done hnd hmem
    simp only [List.map_nil, List.foldl_nil]
    apply List.map_congr_left
    intro k hk
    dsimp only
    rw [List.append_nil]
  | cons k0 order' ih =>
    intro done hnd hmem
    have hk0ks : k0 ∈ ks := (hmem k0).1 (by simp)
    have hk0done : k0 ∉ done := by
      intro hcon
      rcases List.nodup_append.1 hnd with ⟨-, -, hdisj⟩
      exact hdisj hcon (by simp)
    have hstep : renameOne (ks.map (fun k => (if k ∈ done then val k else key k, k)))
        (key k0) (val k0) =
        ks.map (fun k => (if k ∈ done ++ [k0] then val k else key k, k)) := by
      by_cases hkv : key k0 = val k0
      · rw [renameOne, if_pos hkv]
        apply List.map_congr_left
        intro k hk
        dsimp only
        by_cases hkk0 : k = k0
        · subst hkk0
          rw [if_neg hk0done, if_pos (by simp), ← hkv]
        · rw [if_mem_append_one done k k0 hkk0]
      · rw [renameOne_map ks (fun k => if k ∈ done then val k else key k) (key k0)
          (val k0) hkv ⟨k0, hk0ks, by dsimp only; rw [if_neg hk0done]⟩ ?_]
        · apply List.map_congr_left
          intro k hk
          dsimp only
          by_cases hkk0 : k = k0
          · subst hkk0
            rw [if_neg hk0done, if_pos rfl, if_pos (by simp)]
          · have hnotold : (if k ∈ done then val k else key k) ≠ key k0 := by
              by_cases hkd : k ∈ done
              · rw [if_pos hkd]
                exact hB k hk k0 hk0ks hkk0
              · rw [if_neg hkd]
                intro hcon
                exact hkk0 (hA k hk k0 hk0ks hcon)
            rw [if_neg hnotold, if_mem_append_one done k k0 hkk0]
        · intro k hk
          dsimp only
          by_cases hkd : k ∈ done
          · rw [if_pos hkd]
            intro hcon
            have hkeq := hC k hk k0 hk0ks hcon
            subst hkeq
            exact hk0done hkd
          · rw [if_neg hkd]
            intro hcon
            by_cases hkk0 : k = k0
            · subst hkk0
              exact hkv hcon
            · exact hB k0 hk0ks k hk (fun hcc => hkk0 hcc.symm) hcon.symm
    have hassoc : done ++ k0 :: order' = (done ++ [k0]) ++ order' := by simp
    rw [List.map_cons, List.foldl_cons, hstep,
      ih (done ++ [k0]) (by rw [← hassoc]; exact hnd)
        (fun k => by rw [← hassoc]; exact hmem k), hassoc]

theorem foldl_dictInsert (keyf valf : Name → Name) :
    ∀ (l : List Name) (m : List (Name × Name)),
      (l.map keyf).Nodup → (∀ k ∈ l, ∀ e ∈ m, e.1 ≠ keyf k) →
      l.foldl (fun m k => dictInsert m (keyf k, valf k)) m =
        m ++ l.map (fun k => (keyf k, valf k)) := by
  intro l
  induction l with
  | nil => intro m _ _; simp
  | cons k l ih =>
    intro m hnd hfresh
    simp only [List.foldl_cons]
    have hins : dictInsert m (keyf k, valf k) = m ++ [(keyf k, valf k)] := by
      rw [dictInsert, if_neg]
      intro hcon
      rw [List.any_eq_true] at hcon
      obtain ⟨e, hem, he⟩ := hcon
      rw [decide_eq_true_eq] at he
      exact hfresh k (by simp) e hem he
    rw [hins, ih (m ++ [(keyf k, valf k)]) (by
        rw [List.map_cons, List.nodup_cons] at hnd
        exact hnd.2)]
    · simp
    · intro k' hk' e hem
      rcases List.mem_append.1 hem with hem' | hem'
      · exact hfresh k' (by simp [hk']) e hem'
      · rw [List.mem_singleton] at hem'
        subst hem'
        rw [List.map_cons, List.nodup_cons] at hnd
        intro hcon
        have hcc : keyf k = keyf k' := hcon
        exact hnd.1 (by rw [hcc]; exact List.mem_map.2 ⟨k', hk', rfl⟩)

theorem buildRenameMap_eq (ext : Name) (ks : List Name)
    (hnodup : (ks.map (fun k => replaceAll gzChars [] k)).Nodup) :
    buildRenameMap ext ks =
      ks.map (fun k => (replaceAll gzChars [] k,
        replaceAll gzChars [] (replaceAll ext [] k))) := by
  have := foldl_dictInsert (fun k => replaceAll gzChars [] k)
    (fun k => replaceAll gzChars [] (replaceAll ext [] k)) ks [] hnodup
    (fun k _ e he => absurd he (List.not_mem_nil e))
  simpa [buildRenameMap] using this

/-! ### The success path of `copy_vasp_outputs` -/

/-- Base names that `additional_vasp_files` must avoid for the copy to be
well behaved: the optional names, POSCAR, and the four required bases. -/
def forbiddenAdd : List Name :=
  [nm "POTCAR", nm "POTCAR.spec", nm "KPOINTS", nm "POSCAR", nm "INCAR", nm "OUTCAR",
    nm "CONTCAR", nm "vasprun.xml"]

/-- A well-formed `additional_vasp_files` argument: no duplicates, each name
free of `relax` and `".gz"`, and none of the names the function already
handles. -/
def CleanAdd (additional : List Name) : Prop :=
  additional.Nodup ∧ ∀ a ∈ additional,
    containsSub relaxChars a = false ∧ containsSub gzChars a = false ∧ a ∉ forbiddenAdd

/-- Whether the listing holds a POTCAR-type file (plain or gzipped). -/
def hasPotcarFile (listing : List Name) : Bool :=
  (get_zfile listing (nm "POTCAR")).isSome || (get_zfile listing (nm "POTCAR.spec")).isSome

/-- How one copied file was selected: by `get_zfile` under the search name
`b ++ e`, where the base `b` is clean and `e` is the relax extension (for
required files and KPOINTS) or empty (for the POTCAR files). -/
def SelSpec (listing : List Name) (ext : Name) (additional : List Name)
    (b e k : Name) : Prop :=
  get_zfile listing (b ++ e) = some k ∧ CleanB b ∧
    ((e = ext ∧ (b ∈ coreBases ∨ b ∈ additional ∨ b = nm "KPOINTS")) ∨
     (e = [] ∧ (b = nm "POTCAR" ∨ b = nm "POTCAR.spec")))

theorem replaceAll_nil_pat (repl : Name) : ∀ s : Name, replaceAll [] repl s = s := by
  intro s
  induction s with
  | nil => exact replaceAll_nil _ _
  | cons c rest ih =>
    rw [replaceAll_cons, if_neg]
    · rw [ih]
    · rw [Bool.and_eq_true]
      rintro ⟨-, h⟩
      cases h

instance decCleanB (b : Name) : Decidable (CleanB b) :=
  inferInstanceAs (Decidable (_ ∧ _))

theorem coreBases_clean : ∀ b ∈ coreBases, CleanB b := by decide

theorem bases_ne_special (additional : List Name) (hadd : CleanAdd additional) (b : Name)
    (hb : b ∈ coreBases ∨ b ∈ additional ∨ b = nm "KPOINTS") :
    b ≠ nm "POTCAR" ∧ b ≠ nm "POTCAR.spec" ∧ b ≠ nm "POSCAR" := by
  rcases hb with hb | hb | rfl
  · clear hadd
    revert b
    decide
  · have := (hadd.2 b hb).2.2
    rw [forbiddenAdd] at this
    simp only [List.mem_cons, List.not_mem_nil, or_false, not_or] at this
    exact ⟨this.1, this.2.1, this.2.2.2.1⟩
  · refine ⟨by decide, by decide, by decide⟩

/-- The `".gz"`-replacement name of a selected file is its search name. -/
theorem selspec_key_eq (listing : List Name) (ext : Name) (additional : List Name)
    (hshape : ExtShape ext) (b e k : Name)
    (hsel : SelSpec listing ext additional b e k) :
    gunzipName k = b ++ e ∧ replaceAll gzChars [] k = b ++ e := by
  obtain ⟨hz, hb, hkind⟩ := hsel
  rcases hkind with ⟨rfl, -⟩ | ⟨rfl, -⟩
  · rcases hshape with rfl | ⟨ds, rfl, -, hdig⟩
    · exact sel_key listing ['0'] b [] k hb (by decide) (Or.inr rfl) hz
    · exact sel_key listing ds b (dotRelax ++ ds) k hb hdig (Or.inl rfl) hz
  · rcases hshape with rfl | ⟨ds, rfl, -, hdig⟩
    · exact sel_key listing ['0'] b [] k hb (by decide) (Or.inr rfl) hz
    · exact sel_key listing ds b [] k hb hdig (Or.inr rfl) hz

/-- The doubly-replaced name (`relax_ext` out, `".gz"` out) of a selected
file is its bare base. -/
theorem selspec_val_eq (listing : List Name) (ext : Name) (additional : List Name)
    (hshape : ExtShape ext) (b e k : Name)
    (hsel : SelSpec listing ext additional b e k) :
    replaceAll gzChars [] (replaceAll ext [] k) = b := by
  obtain ⟨hz, hb, hkind⟩ := hsel
  rcases hshape with rfl | ⟨ds, rfl, hds, hdig⟩
  · have he : e = [] := by
      rcases hkind with ⟨rfl, -⟩ | ⟨rfl, -⟩ <;> rfl
    subst he
    rw [replaceAll_nil_pat]
    have := (sel_names listing (b ++ []) k (by rw [List.append_nil]; exact hb.2) hz).2
    rw [List.append_nil] at this
    exact this
  · rcases hkind with ⟨rfl, -⟩ | ⟨rfl, -⟩
    · exact sel_val listing ds b (dotRelax ++ ds) k hb hds hdig (Or.inl rfl) hz
    · exact sel_val listing ds b [] k hb hds hdig (Or.inr rfl) hz

theorem required_selspec (listing : List Name) (ext : Name) (additional : List Name)
    (hadd : CleanAdd additional) (req : List Name)
    (hok : requiredVaspFiles listing ext (coreBases ++ additional) = .ok req) :
    ∀ k ∈ req, ∃ b, SelSpec listing ext additional b ext k ∧
      (b ∈ coreBases ∨ b ∈ additional) := by
  intro k hk
  obtain ⟨b, hbmem, hz⟩ :=
    forall2_mem_right (requiredVaspFiles_ok listing ext _ req hok) k hk
  have hb : CleanB b := by
    rcases List.mem_append.1 hbmem with hb' | hb'
    · exact coreBases_clean b hb'
    · exact ⟨(hadd.2 b hb').1, (hadd.2 b hb').2.1⟩
  refine ⟨b, ⟨hz, hb, Or.inl ⟨rfl, ?_⟩⟩, List.mem_append.1 hbmem⟩
  rcases List.mem_append.1 hbmem with h | h
  · exact Or.inl h
  · exact Or.inr (Or.inl h)

theorem optional_selspec (listing : List Name) (ext : Name) (additional : List Name)
    (k : Name) (hk : k ∈ (optionalNamesFor ext).filterMap (get_zfile listing)) :
    ∃ b e, SelSpec listing ext additional b e k ∧
      (b = nm "KPOINTS" ∨ b = nm "POTCAR" ∨ b = nm "POTCAR.spec") := by
  rw [List.mem_filterMap] at hk
  obtain ⟨n, hn, hz⟩ := hk
  rw [optionalNamesFor] at hn
  simp only [List.mem_cons, List.not_mem_nil, or_false] at hn
  rcases hn with rfl | rfl | rfl
  · exact ⟨nm "POTCAR", [],
      ⟨by rw [List.append_nil]; exact hz, by decide, Or.inr ⟨rfl, Or.inl rfl⟩⟩,
      Or.inr (Or.inl rfl)⟩
  · exact ⟨nm "POTCAR.spec", [],
      ⟨by rw [List.append_nil]; exact hz, by decide, Or.inr ⟨rfl, Or.inr rfl⟩⟩,
      Or.inr (Or.inr rfl)⟩
  · exact ⟨nm "KPOINTS", ext, ⟨hz, by decide, Or.inl ⟨rfl, Or.inr (Or.inr rfl)⟩⟩,
      Or.inl rfl⟩

theorem sel_searched_inj (listing : List Name) (n k k' : Name)
    (h1 : get_zfile listing n = some k) (h2 : get_zfile listing n = some k') : k = k' := by
  rw [h1] at h2
  exact Option.some.inj h2

theorem selspec_kind_base (listing : List Name) (ext : Name) (additional : List Name)
    (hadd : CleanAdd additional) (b e k : Name)
    (hsel : SelSpec listing ext additional b e k)
    (hb' : b = nm "POTCAR" ∨ b = nm "POTCAR.spec") : e = [] := by
  obtain ⟨-, -, hkind⟩ := hsel
  rcases hkind with ⟨rfl, hmem⟩ | ⟨rfl, -⟩
  · exfalso
    obtain ⟨h1, h2, -⟩ := bases_ne_special additional hadd b hmem
    rcases hb' with rfl | rfl
    · exact h1 rfl
    · exact h2 rfl
  · rfl

/-- Injectivity of the stripped name across selected files. -/
theorem sel_key_inj (listing : List Name) (ext : Name) (additional : List Name)
    (hshape : ExtShape ext) (b e k b' e' k' : Name)
    (h1 : SelSpec listing ext additional b e k)
    (h2 : SelSpec listing ext additional b' e' k')
    (heq : replaceAll gzChars [] k = replaceAll gzChars [] k') : k = k' := by
  have hk1 := (selspec_key_eq listing ext additional hshape b e k h1).2
  have hk2 := (selspec_key_eq listing ext additional hshape b' e' k' h2).2
  rw [hk1, hk2] at heq
  have hz1 := h1.1
  rw [heq] at hz1
  exact sel_searched_inj listing (b' ++ e') k k' hz1 h2.1

/-- Injectivity of the debased name across selected files. -/
theorem sel_val_inj (listing : List Name) (ext : Name) (additional : List Name)
    (hadd : CleanAdd additional) (hshape : ExtShape ext) (b e k b' e' k' : Name)
    (h1 : SelSpec listing ext additional b e k)
    (h2 : SelSpec listing ext additional b' e' k')
    (heq : replaceAll gzChars [] (replaceAll ext [] k) =
      replaceAll gzChars [] (replaceAll ext [] k')) : k = k' := by
  have hv1 := selspec_val_eq listing ext additional hshape b e k h1
  have hv2 := selspec_val_eq listing ext additional hshape b' e' k' h2
  rw [hv1, hv2] at heq
  subst heq
  obtain ⟨hz1, -, hkind1⟩ := h1
  obtain ⟨hz2, -, hkind2⟩ := h2
  rcases hkind1 with ⟨rfl, hm1⟩ | ⟨rfl, hm1⟩ <;> rcases hkind2 with ⟨rfl, hm2⟩ | ⟨rfl, hm2⟩
  · exact sel_searched_inj listing _ k k' hz1 hz2
  · exfalso
    obtain ⟨hp1, hp2, -⟩ := bases_ne_special additional hadd b hm1
    rcases hm2 with h' | h'
    · exact hp1 h'
    · exact hp2 h'
  · exfalso
    obtain ⟨hp1, hp2, -⟩ := bases_ne_special additional hadd b hm2
    rcases hm1 with h' | h'
    · exact hp1 h'
    · exact hp2 h'
  · exact sel_searched_inj listing _ k k' hz1 hz2

theorem relax_in_base_ext (b ds : Name) :
    containsSub relaxChars (b ++ (dotRelax ++ ds)) = true :=
  containsSub_of_parts relaxChars (b ++ ['.']) ds _ (by simp [dotRelax])

/-- The debased name of one selected file is never the stripped name of a
different selected file. -/
theorem sel_val_ne_key (listing : List Name) (ext : Name) (additional : List Name)
    (hadd : CleanAdd additional) (hshape : ExtShape ext) (b e k b' e' k' : Name)
    (h1 : SelSpec listing ext additional b e k)
    (h2 : SelSpec listing ext additional b' e' k') (hne : k ≠ k') :
    replaceAll gzChars [] (replaceAll ext [] k) ≠ replaceAll gzChars [] k' := by
  have hv1 := selspec_val_eq listing ext additional hshape b e k h1
  have hk2 := (selspec_key_eq listing ext additional hshape b' e' k' h2).2
  rw [hv1, hk2]
  intro hbb
  obtain ⟨hz1, hcb, hkind1⟩ := h1
  obtain ⟨hz2, -, hkind2⟩ := h2
  rcases hkind2 with ⟨rfl, hm2⟩ | ⟨rfl, hm2⟩
  · rcases hshape with rfl | ⟨ds, rfl, -, -⟩
    · rw [List.append_nil] at hbb
      subst hbb
      have he1 : e = [] := by
        rcases hkind1 with ⟨rfl, -⟩ | ⟨rfl, -⟩ <;> rfl
      subst he1
      exact hne (sel_searched_inj listing _ k k' hz1 hz2)
    · have hc1 := hcb.1
      rw [hbb, relax_in_base_ext b' ds] at hc1
      cases hc1
  · rw [List.append_nil] at hbb
    subst hbb
    rcases hkind1 with ⟨rfl, hm1⟩ | ⟨rfl, hm1⟩
    · obtain ⟨hp1, hp2, -⟩ := bases_ne_special additional hadd b hm1
      rcases hm2 with h' | h'
      · exact hp1 h'
      · exact hp2 h'
    · exact hne (sel_searched_inj listing _ k k' hz1 hz2)

theorem append_cancel_left' (l : Name) : ∀ x y : Name, l ++ x = l ++ y → x = y := by
  induction l with
  | nil => intro x y h; exact h
  | cons c l ih =>
    intro x y h
    injection h with _ h2
    exact ih x y h2

theorem append_cancel_right' (t x y : Name) (h : x ++ t = y ++ t) : x = y := by
  have hr := congrArg List.reverse h
  rw [List.reverse_append, List.reverse_append] at hr
  have h2 := append_cancel_left' t.reverse x.reverse y.reverse hr
  have h3 := congrArg List.reverse h2
  simpa using h3

theorem core_sub_forbidden : ∀ b ∈ coreBases, b ∈ forbiddenAdd := by decide

theorem forall2_map_eq {α β : Type} {R : α → β → Prop} (g₁ : α → Name) (g₂ : β → Name) :
    ∀ {l₁ : List α} {l₂ : List β}, List.Forall₂ R l₁ l₂ →
      (∀ a ∈ l₁, ∀ b ∈ l₂, R a b → g₂ b = g₁ a) → l₂.map g₂ = l₁.map g₁ := by
  intro l₁ l₂ h
  induction h with
  | nil => intro _; rfl
  | cons hr hrest ih =>
    intro hg
    rw [List.map_cons, List.map_cons, hg _ (by simp) _ (by simp) hr,
      ih (fun a ha b hb hab => hg a (by simp [ha]) b (by simp [hb]) hab)]

theorem filterMap_key_map (listing : List Name) :
    ∀ names : List Name,
      (∀ n ∈ names, ∀ k, get_zfile listing n = some k → replaceAll gzChars [] k = n) →
      ((names.filterMap (get_zfile listing)).map (fun k => replaceAll gzChars [] k)) =
        names.filter (fun n => (get_zfile listing n).isSome) := by
  intro names
  induction names with
  | nil => intro _; rfl
  | cons n rest ih =>
    intro h
    cases hz : get_zfile listing n with
    | none =>
      simp only [List.filterMap_cons, hz, List.filter_cons, Option.isSome_none,
        Bool.false_eq_true, if_false]
      exact ih (fun n' hn' => h n' (by simp [hn']))
    | some k =>
      simp only [List.filterMap_cons, hz, List.filter_cons, Option.isSome_some, if_true]
      rw [List.map_cons, h n (by simp) k hz,
        ih (fun n' hn' => h n' (by simp [hn']))]

theorem optionalNames_key (listing : List Name) (ext : Name) (hshape : ExtShape ext) :
    ∀ n ∈ optionalNamesFor ext, ∀ k, get_zfile listing n = some k →
      replaceAll gzChars [] k = n := by
  intro n hn k hz
  rw [optionalNamesFor] at hn
  simp only [List.mem_cons, List.not_mem_nil, or_false] at hn
  rcases hn with rfl | rfl | rfl
  · exact (sel_names listing _ k (by decide) hz).2
  · exact (sel_names listing _ k (by decide) hz).2
  · refine (sel_names listing _ k ?_ hz).2
    rcases hshape with rfl | ⟨ds, rfl, -, hdig⟩
    · decide
    · exact gz_free_append_ext (nm "KPOINTS") ds (by decide) hdig

theorem searched_nodup (listing : List Name) (ext : Name) (additional : List Name)
    (hadd : CleanAdd additional) (hshape : ExtShape ext) :
    ((coreBases ++ additional).map (fun b => b ++ ext) ++
      (optionalNamesFor ext).filter (fun n => (get_zfile listing n).isSome)).Nodup := by
  have hbases : (coreBases ++ additional).Nodup := by
    rw [List.nodup_append]
    refine ⟨by decide, hadd.1, ?_⟩
    intro a ha ha'
    exact (hadd.2 a ha').2.2 (core_sub_forbidden a ha)
  have hS1 : ((coreBases ++ additional).map (fun b => b ++ ext)).Nodup :=
    hbases.map_on (fun x _ y _ hxy => append_cancel_right' ext x y hxy)
  have hS2 : (optionalNamesFor ext).Nodup := by
    rcases hshape with rfl | ⟨ds, rfl, hds, hdig⟩
    · decide
    · rw [optionalNamesFor]
      have hk1 : nm "POTCAR" ≠ nm "KPOINTS" ++ (dotRelax ++ ds) := by
        intro h
        have := relax_in_base_ext (nm "KPOINTS") ds
        rw [← h] at this
        exact absurd this (by decide)
      have hk2 : nm "POTCAR.spec" ≠ nm "KPOINTS" ++ (dotRelax ++ ds) := by
        intro h
        have := relax_in_base_ext (nm "KPOINTS") ds
        rw [← h] at this
        exact absurd this (by decide)
      refine List.nodup_cons.2 ⟨?_, List.nodup_cons.2 ⟨?_, List.nodup_singleton _⟩⟩
      · simp only [List.mem_cons, List.not_mem_nil, or_false, not_or]
        exact ⟨by decide, hk1⟩
      · simp only [List.mem_cons, List.not_mem_nil, or_false, not_or]
        exact hk2
  rw [List.nodup_append]
  refine ⟨hS1, hS2.filter _, ?_⟩
  intro n hn hn'
  obtain ⟨b, hbmem, rfl⟩ := List.mem_map.1 hn
  have hn2 := List.mem_of_mem_filter hn'
  rw [optionalNamesFor] at hn2
  simp only [List.mem_cons, List.not_mem_nil, or_false] at hn2
  have hbne := bases_ne_special additional hadd b (by
    rcases List.mem_append.1 hbmem with h | h
    · exact Or.inl h
    · exact Or.inr (Or.inl h))
  rcases hn2 with heq | heq | heq
  · rcases hshape with rfl | ⟨ds, rfl, -, -⟩
    · rw [List.append_nil] at heq
      exact hbne.1 heq
    · have := relax_in_base_ext b ds
      rw [heq] at this
      exact absurd this (by decide)
  · rcases hshape with rfl | ⟨ds, rfl, -, -⟩
    · rw [List.append_nil] at heq
      exact hbne.2.1 heq
    · have := relax_in_base_ext b ds
      rw [heq] at this
      exact absurd this (by decide)
  · have hbk : b = nm "KPOINTS" := append_cancel_right' ext b (nm "KPOINTS") heq
    subst hbk
    rcases List.mem_append.1 hbmem with h | h
    · exact absurd h (by decide)
    · exact (hadd.2 _ h).2.2 (by decide)

theorem copied_key_map (listing : List Name) (ext : Name) (additional : List Name)
    (hadd : CleanAdd additional) (hshape : ExtShape ext) (req : List Name)
    (hok : requiredVaspFiles listing ext (coreBases ++ additional) = .ok req) :
    ((req ++ (optionalNamesFor ext).filterMap (get_zfile listing)).map
      (fun k => replaceAll gzChars [] k)) =
      (coreBases ++ additional).map (fun b => b ++ ext) ++
        (optionalNamesFor ext).filter (fun n => (get_zfile listing n).isSome) := by
  rw [List.map_append]
  congr 1
  · refine forall2_map_eq (fun b => b ++ ext) (fun k => replaceAll gzChars [] k)
      (requiredVaspFiles_ok listing ext _ req hok) ?_
    intro b hb f hf hz
    have hcb : CleanB b := by
      rcases List.mem_append.1 hb with hb' | hb'
      · exact coreBases_clean b hb'
      · exact ⟨(hadd.2 b hb').1, (hadd.2 b hb').2.1⟩
    refine (sel_names listing (b ++ ext) f ?_ hz).2
    rcases hshape with rfl | ⟨ds, rfl, -, hdig⟩
    · rw [List.append_nil]
      exact hcb.2
    · exact gz_free_append_ext b ds hcb.2 hdig
  · exact filterMap_key_map listing _ (optionalNames_key listing ext hshape)

theorem copied_nodup (listing : List Name) (ext : Name) (additional : List Name)
    (hadd : CleanAdd additional) (hshape : ExtShape ext) (req : List Name)
    (hok : requiredVaspFiles listing ext (coreBases ++ additional) = .ok req) :
    (req ++ (optionalNamesFor ext).filterMap (get_zfile listing)).Nodup := by
  apply List.Nodup.of_map (f := fun k => replaceAll gzChars [] k)
  rw [copied_key_map listing ext additional hadd hshape req hok]
  exact searched_nodup listing ext additional hadd hshape

/-- The success path of `copy_vasp_outputs`: with a well-formed listing and
additional-file list, all required files present and a POTCAR-type file
available, the function succeeds; the copied files are the required and
optional selections, and each copied file ends up in the destination under
its name with the relax extension and `".gz"` replaced away (and CONTCAR
renamed to POSCAR when requested). -/
theorem cvo_spec (listing additional : List Name) (ext : Name) (ctp : Bool)
    (hadd : CleanAdd additional)
    (hgle : get_largest_relax_extension listing = some ext)
    (hshape : ExtShape ext)
    (hreq : ∀ b ∈ coreBases ++ additional, (get_zfile listing (b ++ ext)).isSome = true)
    (hpot : hasPotcarFile listing = true) :
    ∃ req, requiredVaspFiles listing ext (coreBases ++ additional) = .ok req ∧
      copy_vasp_outputs listing additional ctp = .ok
        ⟨req ++ (optionalNamesFor ext).filterMap (get_zfile listing),
          (req ++ (optionalNamesFor ext).filterMap (get_zfile listing)).map (fun k =>
            (if ctp = true ∧ replaceAll gzChars [] (replaceAll ext [] k) = nm "CONTCAR"
              then nm "POSCAR"
              else replaceAll gzChars [] (replaceAll ext [] k), k))⟩ ∧
      ∀ k ∈ req ++ (optionalNamesFor ext).filterMap (get_zfile listing),
        ∃ b e, SelSpec listing ext additional b e k := by
  obtain ⟨req, hok⟩ := requiredVaspFiles_total listing ext _ hreq
  have hsel : ∀ k ∈ req ++ (optionalNamesFor ext).filterMap (get_zfile listing),
      ∃ b e, SelSpec listing ext additional b e k := by
    intro k hk
    rcases List.mem_append.1 hk with hk' | hk'
    · obtain ⟨b, hs, -⟩ := required_selspec listing ext additional hadd req hok k hk'
      exact ⟨b, ext, hs⟩
    · obtain ⟨b, e, hs, -⟩ := optional_selspec listing ext additional k hk'
      exact ⟨b, e, hs⟩
  have hgk : ∀ k ∈ req ++ (optionalNamesFor ext).filterMap (get_zfile listing),
      gunzipName k = replaceAll gzChars [] k := by
    intro k hk
    obtain ⟨b, e, hs⟩ := hsel k hk
    have h := selspec_key_eq listing ext additional hshape b e k hs
    rw [h.1, h.2]
  have hA : ∀ k ∈ req ++ (optionalNamesFor ext).filterMap (get_zfile listing),
      ∀ k' ∈ req ++ (optionalNamesFor ext).filterMap (get_zfile listing),
      replaceAll gzChars [] k = replaceAll gzChars [] k' → k = k' := by
    intro k hk k' hk' heq
    obtain ⟨b, e, hs⟩ := hsel k hk
    obtain ⟨b', e', hs'⟩ := hsel k' hk'
    exact sel_key_inj listing ext additional hshape b e k b' e' k' hs hs' heq
  have hB : ∀ k ∈ req ++ (optionalNamesFor ext).filterMap (get_zfile listing),
      ∀ k' ∈ req ++ (optionalNamesFor ext).filterMap (get_zfile listing), k ≠ k' →
      replaceAll gzChars [] (replaceAll ext [] k) ≠ replaceAll gzChars [] k' := by
    intro k hk k' hk' hne
    obtain ⟨b, e, hs⟩ := hsel k hk
    obtain ⟨b', e', hs'⟩ := hsel k' hk'
    exact sel_val_ne_key listing ext additional hadd hshape b e k b' e' k' hs hs' hne
  have hC : ∀ k ∈ req ++ (optionalNamesFor ext).filterMap (get_zfile listing),
      ∀ k' ∈ req ++ (optionalNamesFor ext).filterMap (get_zfile listing),
      replaceAll gzChars [] (replaceAll ext [] k) =
        replaceAll gzChars [] (replaceAll ext [] k') → k = k' := by
    intro k hk k' hk' heq
    obtain ⟨b, e, hs⟩ := hsel k hk
    obtain ⟨b', e', hs'⟩ := hsel k' hk'
    exact sel_val_inj listing ext additional hadd hshape b e k b' e' k' hs hs' heq
  have hnd : (req ++ (optionalNamesFor ext).filterMap (get_zfile listing)).Nodup :=
    copied_nodup listing ext additional hadd hshape req hok
  have hvalspec : ∀ k ∈ req ++ (optionalNamesFor ext).filterMap (get_zfile listing),
      ∃ b e, SelSpec listing ext additional b e k ∧
        replaceAll gzChars [] (replaceAll ext [] k) = b := by
    intro k hk
    obtain ⟨b, e, hs⟩ := hsel k hk
    exact ⟨b, e, hs, selspec_val_eq listing ext additional hshape b e k hs⟩
  have hval_ne_poscar : ∀ k ∈ req ++ (optionalNamesFor ext).filterMap (get_zfile listing),
      replaceAll gzChars [] (replaceAll ext [] k) ≠ nm "POSCAR" := by
    intro k hk
    obtain ⟨b, e, hs, hv⟩ := hvalspec k hk
    rw [hv]
    obtain ⟨-, -, hkind⟩ := hs
    rcases hkind with ⟨-, hm⟩ | ⟨-, hm⟩
    · exact (bases_ne_special additional hadd b hm).2.2
    · rcases hm with rfl | rfl
      · decide
      · decide
  have hcheck : (((optionalNamesFor ext).filterMap (get_zfile listing)).all
      fun f => !containsSub (nm "POTCAR") f) = false := by
    have hpotmem : ∃ f ∈ (optionalNamesFor ext).filterMap (get_zfile listing),
        containsSub (nm "POTCAR") f = true := by
      rw [hasPotcarFile, Bool.or_eq_true] at hpot
      rcases hpot with hp | hp
      · obtain ⟨f, hf⟩ := Option.isSome_iff_exists.1 hp
        refine ⟨f, List.mem_filterMap.2 ⟨nm "POTCAR", by rw [optionalNamesFor]; simp, hf⟩, ?_⟩
        obtain ⟨-, hk | hk⟩ := get_zfile_eq _ _ _ hf
        · subst hk
          decide
        · subst hk
          exact containsSub_of_parts _ [] gzChars _ rfl
      · obtain ⟨f, hf⟩ := Option.isSome_iff_exists.1 hp
        refine ⟨f, List.mem_filterMap.2
          ⟨nm "POTCAR.spec", by rw [optionalNamesFor]; simp, hf⟩, ?_⟩
        obtain ⟨-, hk | hk⟩ := get_zfile_eq _ _ _ hf
        · subst hk
          decide
        · subst hk
          exact containsSub_of_parts (nm "POTCAR") [] (nm ".spec" ++ gzChars) _ (by decide)
    obtain ⟨f, hf, hc⟩ := hpotmem
    by_contra hcon
    rw [Bool.not_eq_false, List.all_eq_true] at hcon
    have := hcon f hf
    rw [hc] at this
    cases this
  have hdest2 : (if ext.isEmpty = true
      then (req ++ (optionalNamesFor ext).filterMap (get_zfile listing)).map
        (fun f => (gunzipName f, f))
      else (buildRenameMap ext ((optionalNamesFor ext).filterMap (get_zfile listing) ++ req)).foldl
        (fun d p => renameOne d p.1 p.2)
        ((req ++ (optionalNamesFor ext).filterMap (get_zfile listing)).map
          (fun f => (gunzipName f, f)))) =
      (req ++ (optionalNamesFor ext).filterMap (get_zfile listing)).map
        (fun k => (replaceAll gzChars [] (replaceAll ext [] k), k)) := by
    have hdest1 : (req ++ (optionalNamesFor ext).filterMap (get_zfile listing)).map
        (fun f => (gunzipName f, f)) =
        (req ++ (optionalNamesFor ext).filterMap (get_zfile listing)).map
          (fun k => (if k ∈ ([] : List Name)
            then replaceAll gzChars [] (replaceAll ext [] k)
            else replaceAll gzChars [] k, k)) := by
      apply List.map_congr_left
      intro k hk
      dsimp only
      rw [if_neg (List.not_mem_nil k), hgk k hk]
    by_cases hemp : ext.isEmpty = true
    · rw [if_pos hemp]
      rw [List.isEmpty_iff] at hemp
      subst hemp
      apply List.map_congr_left
      intro k hk
      dsimp only
      rw [replaceAll_nil_pat, hgk k hk]
    · rw [if_neg hemp]
      have hperm : ∀ k, k ∈ ([] : List Name) ++
          ((optionalNamesFor ext).filterMap (get_zfile listing) ++ req) ↔
          k ∈ req ++ (optionalNamesFor ext).filterMap (get_zfile listing) := by
        intro k
        simp only [List.nil_append, List.mem_append]
        tauto
      have hndo : (([] : List Name) ++
          ((optionalNamesFor ext).filterMap (get_zfile listing) ++ req)).Nodup := by
        simp only [List.nil_append]
        exact (List.perm_append_comm.nodup_iff).2 hnd
      have hmapnodup : (((optionalNamesFor ext).filterMap (get_zfile listing) ++ req).map
          (fun k => replaceAll gzChars [] k)).Nodup := by
        have hksmap : ((req ++ (optionalNamesFor ext).filterMap (get_zfile listing)).map
            (fun k => replaceAll gzChars [] k)).Nodup := by
          rw [copied_key_map listing ext additional hadd hshape req hok]
          exact searched_nodup listing ext additional hadd hshape
        exact ((List.perm_append_comm.map (fun k => replaceAll gzChars [] k)).nodup_iff).2
          hksmap
      rw [buildRenameMap_eq ext _ hmapnodup, hdest1,
        renameAll_spec (fun k => replaceAll gzChars [] k)
          (fun k => replaceAll gzChars [] (replaceAll ext [] k))
          (req ++ (optionalNamesFor ext).filterMap (get_zfile listing)) hA hB hC
          ((optionalNamesFor ext).filterMap (get_zfile listing) ++ req) [] hndo hperm]
      apply List.map_congr_left
      intro k hk
      dsimp only
      rw [if_pos ((hperm k).2 hk)]
  refine ⟨req, hok, ?_, hsel⟩
  have hcontcar : ∃ kc ∈ req, replaceAll gzChars [] (replaceAll ext [] kc) = nm "CONTCAR" := by
    obtain ⟨kc, hkc, hzc⟩ := forall2_mem_left (requiredVaspFiles_ok listing ext _ req hok)
      (nm "CONTCAR") (List.mem_append.2 (Or.inl (by decide)))
    refine ⟨kc, hkc, ?_⟩
    have hs : SelSpec listing ext additional (nm "CONTCAR") ext kc :=
      ⟨hzc, by decide, Or.inl ⟨rfl, Or.inl (by decide)⟩⟩
    exact selspec_val_eq listing ext additional hshape (nm "CONTCAR") ext kc hs
  simp only [copy_vasp_outputs, hgle, hok, hcheck, Bool.false_eq_true, if_false]
  rw [hdest2]
  cases ctp with
  | false =>
    simp only [Bool.false_eq_true, if_false, Except.ok.injEq, CopyResult.mk.injEq, true_and]
    apply List.map_congr_left
    intro k hk
    dsimp only
    rw [if_neg]
    rintro ⟨hcon, -⟩
    cases hcon
  | true =>
    obtain ⟨kc, hkc, hvc⟩ := hcontcar
    have hany : ((req ++ (optionalNamesFor ext).filterMap (get_zfile listing)).map
        (fun k => (replaceAll gzChars [] (replaceAll ext [] k), k))).any
        (fun e => decide (e.1 = nm "CONTCAR")) = true := by
      rw [List.any_eq_true]
      refine ⟨(replaceAll gzChars [] (replaceAll ext [] kc), kc),
        List.mem_map.2 ⟨kc, List.mem_append.2 (Or.inl hkc), rfl⟩, ?_⟩
      rw [decide_eq_true_eq]
      exact hvc
    rw [if_pos rfl, if_pos hany]
    have hren := renameOne_map (req ++ (optionalNamesFor ext).filterMap (get_zfile listing))
      (fun k => replaceAll gzChars [] (replaceAll ext [] k)) (nm "CONTCAR") (nm "POSCAR")
      (by decide) ⟨kc, List.mem_append.2 (Or.inl hkc), hvc⟩ hval_ne_poscar
    rw [hren]
    simp only [Except.ok.injEq, CopyResult.mk.injEq, true_and]

theorem searchRelaxNum_none (f : Name) (hf : containsSub relaxChars f = false) :
    searchRelaxNum f = none := by
  induction f with
  | nil => rfl
  | cons c rest ih =>
    rw [searchRelaxNum_cons]
    have hm : matchRelaxAt (c :: rest) = none := by
      rw [matchRelaxAt_cons, if_neg]
      intro hpre
      have : containsSub relaxChars rest = true := containsSub_of_isPre _ _ hpre
      rw [containsSub_cons_elim _ _ _ hf] at this
      cases this
    rw [hm]
    exact ih (containsSub_cons_elim _ _ _ hf)

/-- C2: On a well-formed source directory whose largest relax extension is
`".relaxN"` (nonempty digits `ds`), and with clean additional files, a
successful `copy_vasp_outputs` (suffix-stripping phase, `contcar_to_poscar`
false) selects only files carrying the highest-numbered suffix (besides the
suffix-free POTCAR files): every copied file either contains `".relax" ++ ds`
or is a POTCAR-type file, any relax number occurring in a copied file equals
`dsVal ds` (no lower-numbered relax file is copied), and every copied file
lands in the destination renamed with both the `".relaxN"` suffix and any
`".gz"` suffix removed. -/
theorem C2_copy_selects_highest (listing additional : List Name) (ds : Name)
    (hWF : ∀ f ∈ listing, globRelax f = true → RelaxShape f)
    (hadd : CleanAdd additional)
    (hgle : get_largest_relax_extension listing = some (dotRelax ++ ds))
    (hreq : ∀ b ∈ coreBases ++ additional,
      (get_zfile listing (b ++ (dotRelax ++ ds))).isSome = true)
    (hpot : hasPotcarFile listing = true) (res : CopyResult)
    (hok : copy_vasp_outputs listing additional false = .ok res) :
    (∀ k ∈ res.copied, containsSub (dotRelax ++ ds) k = true ∨
      gunzipName k = nm "POTCAR" ∨ gunzipName k = nm "POTCAR.spec") ∧
    (∀ k ∈ res.copied, ∀ ds', searchRelaxNum k = some ds' → dsVal ds' = dsVal ds) ∧
    (∀ e ∈ res.dest, e.1 = replaceAll gzChars [] (replaceAll (dotRelax ++ ds) [] e.2) ∧
      e.2 ∈ res.copied) ∧
    (∀ k ∈ res.copied,
      (replaceAll gzChars [] (replaceAll (dotRelax ++ ds) [] k), k) ∈ res.dest) := by
  have hshape : ExtShape (dotRelax ++ ds) := gle_ExtShape listing hWF _ hgle
  have hdsfacts : ds ≠ [] ∧ ∀ c ∈ ds, c.isDigit = true := by
    rcases hshape with hc | ⟨ds', heq, hne, hdig⟩
    · cases hc
    · obtain rfl : ds = ds' := append_cancel_left' dotRelax ds ds' heq
      exact ⟨hne, hdig⟩
  obtain ⟨req, -, hcvo, hsel⟩ :=
    cvo_spec listing additional (dotRelax ++ ds) false hadd hgle hshape hreq hpot
  rw [hok] at hcvo
  obtain rfl : res = _ := Except.ok.inj hcvo
  have hselspec : ∀ k ∈ req ++ (optionalNamesFor (dotRelax ++ ds)).filterMap
      (get_zfile listing), ∃ b e, SelSpec listing (dotRelax ++ ds) additional b e k := hsel
  refine ⟨?_, ?_, ?_, ?_⟩
  · intro k hk
    obtain ⟨b, e, hs⟩ := hselspec k hk
    obtain ⟨hz, hb, hkind⟩ := hs
    rcases hkind with ⟨rfl, -⟩ | ⟨rfl, hm⟩
    · obtain ⟨-, hf | hf⟩ := get_zfile_eq _ _ _ hz
      · exact Or.inl (containsSub_of_parts _ b [] _ (by rw [hf, List.append_nil]))
      · exact Or.inl (containsSub_of_parts _ b gzChars _ (by rw [hf]))
    · have := (selspec_key_eq listing (dotRelax ++ ds) additional hshape b [] k
        ⟨hz, hb, Or.inr ⟨rfl, hm⟩⟩).1
      rw [List.append_nil] at this
      rcases hm with rfl | rfl
      · exact Or.inr (Or.inl this)
      · exact Or.inr (Or.inr this)
  · intro k hk ds' hds'
    obtain ⟨b, e, hs⟩ := hselspec k hk
    obtain ⟨hz, hb, hkind⟩ := hs
    rcases hkind with ⟨rfl, -⟩ | ⟨rfl, hm⟩
    · obtain ⟨-, hf | hf⟩ := get_zfile_eq _ _ _ hz
      · have hsearch : searchRelaxNum k = some ds := by
          rw [hf]
          have hs2 := searchRelaxNum_shape b ds [] hb.1 hdsfacts.1 hdsfacts.2
            (fun c hc => by cases hc)
          simpa using hs2
        rw [hsearch] at hds'
        rw [Option.some.inj hds']
      · have hsearch : searchRelaxNum k = some ds := by
          rw [hf]
          have hs2 := searchRelaxNum_shape b ds gzChars hb.1 hdsfacts.1 hdsfacts.2
            (fun c hc => by
              have hcd : c = '.' := by simpa [gzChars] using hc.symm
              rw [hcd]
              decide)
          rw [show (b ++ (dotRelax ++ ds)) ++ gzChars = b ++ dotRelax ++ ds ++ gzChars by
            simp]
          exact hs2
        rw [hsearch] at hds'
        rw [Option.some.inj hds']
    · rw [List.append_nil] at hz
      obtain ⟨-, hf | hf⟩ := get_zfile_eq _ _ _ hz
      · have hfree : containsSub relaxChars k = false := by
          subst hf
          rcases hm with rfl | rfl
          · decide
          · decide
        rw [searchRelaxNum_none k hfree] at hds'
        cases hds'
      · have hfree : containsSub relaxChars k = false := by
          subst hf
          rcases hm with rfl | rfl
          · exact relax_free_append_gz _ (by decide)
          · exact relax_free_append_gz _ (by decide)
        rw [searchRelaxNum_none k hfree] at hds'
        cases hds'
  · intro e he
    obtain ⟨k, hkmem, hkeq⟩ := List.mem_map.1 he
    rw [← hkeq]
    refine ⟨?_, by simpa using hkmem⟩
    dsimp only
    rw [if_neg]
    rintro ⟨hcon, -⟩
    cases hcon
  · intro k hk
    have : (if (false = true ∧
        replaceAll gzChars [] (replaceAll (dotRelax ++ ds) [] k) = nm "CONTCAR")
        then nm "POSCAR"
        else replaceAll gzChars [] (replaceAll (dotRelax ++ ds) [] k)) =
        replaceAll gzChars [] (replaceAll (dotRelax ++ ds) [] k) := by
      rw [if_neg]
      rintro ⟨hcon, -⟩
      cases hcon
    rw [← this]
    exact List.mem_map.2 ⟨k, hk, rfl⟩

instance decEqExceptCopy : DecidableEq (Except CopyErr CopyResult) := fun a b =>
  match a, b with
  | .error e, .error e' =>
    if h : e = e' then isTrue (by rw [h]) else isFalse (fun hc => h (by injection hc))
  | .ok r, .ok r' =>
    if h : r = r' then isTrue (by rw [h]) else isFalse (fun hc => h (by injection hc))
  | .error _, .ok _ => isFalse (fun hc => Except.noConfusion hc)
  | .ok _, .error _ => isFalse (fun hc => Except.noConfusion hc)

/-- Witness for C2 on a two-step relaxation directory. -/
theorem C2_copy_selects_highest_witness :
    (get_largest_relax_extension [nm "INCAR.relax1", nm "INCAR.relax2.gz",
      nm "OUTCAR.relax2", nm "CONTCAR.relax2", nm "vasprun.xml.relax2.gz", nm "POTCAR",
      nm "KPOINTS.relax2"] = some (dotRelax ++ ['2'])) ∧
    ((∀ k ∈ [nm "INCAR.relax2.gz", nm "OUTCAR.relax2", nm "CONTCAR.relax2",
        nm "vasprun.xml.relax2.gz", nm "POTCAR", nm "KPOINTS.relax2"],
        containsSub (dotRelax ++ ['2']) k = true ∨
        gunzipName k = nm "POTCAR" ∨ gunzipName k = nm "POTCAR.spec") ∧
      (∀ k ∈ [nm "INCAR.relax2.gz", nm "OUTCAR.relax2", nm "CONTCAR.relax2",
        nm "vasprun.xml.relax2.gz", nm "POTCAR", nm "KPOINTS.relax2"],
        ∀ ds', searchRelaxNum k = some ds' → dsVal ds' = dsVal ['2']) ∧
      (∀ e ∈ [(nm "INCAR", nm "INCAR.relax2.gz"), (nm "OUTCAR", nm "OUTCAR.relax2"),
        (nm "CONTCAR", nm "CONTCAR.relax2"),
        (nm "vasprun.xml", nm "vasprun.xml.relax2.gz"), (nm "POTCAR", nm "POTCAR"),
        (nm "KPOINTS", nm "KPOINTS.relax2")],
        e.1 = replaceAll gzChars [] (replaceAll (dotRelax ++ ['2']) [] e.2) ∧
        e.2 ∈ [nm "INCAR.relax2.gz", nm "OUTCAR.relax2", nm "CONTCAR.relax2",
          nm "vasprun.xml.relax2.gz", nm "POTCAR", nm "KPOINTS.relax2"]) ∧
      (∀ k ∈ [nm "INCAR.relax2.gz", nm "OUTCAR.relax2", nm "CONTCAR.relax2",
        nm "vasprun.xml.relax2.gz", nm "POTCAR", nm "KPOINTS.relax2"],
        (replaceAll gzChars [] (replaceAll (dotRelax ++ ['2']) [] k), k) ∈
          [(nm "INCAR", nm "INCAR.relax2.gz"), (nm "OUTCAR", nm "OUTCAR.relax2"),
            (nm "CONTCAR", nm "CONTCAR.relax2"),
            (nm "vasprun.xml", nm "vasprun.xml.relax2.gz"), (nm "POTCAR", nm "POTCAR"),
            (nm "KPOINTS", nm "KPOINTS.relax2")])) := by
  have hWF : ∀ f ∈ [nm "INCAR.relax1", nm "INCAR.relax2.gz", nm "OUTCAR.relax2",
      nm "CONTCAR.relax2", nm "vasprun.xml.relax2.gz", nm "POTCAR", nm "KPOINTS.relax2"],
      globRelax f = true → RelaxShape f := by
    intro f hf hglob
    simp only [List.mem_cons, List.not_mem_nil, or_false] at hf
    rcases hf with rfl | rfl | rfl | rfl | rfl | rfl | rfl
    · exact relaxShape_of_parts (nm "INCAR") (nm "1") (nm "") _ (by decide)
        ⟨by decide, by decide, by decide, by decide, by decide⟩
    · exact relaxShape_of_parts (nm "INCAR") (nm "2") (nm ".gz") _ (by decide)
        ⟨by decide, by decide, by decide, by decide, by decide⟩
    · exact relaxShape_of_parts (nm "OUTCAR") (nm "2") (nm "") _ (by decide)
        ⟨by decide, by decide, by decide, by decide, by decide⟩
    · exact relaxShape_of_parts (nm "CONTCAR") (nm "2") (nm "") _ (by decide)
        ⟨by decide, by decide, by decide, by decide, by decide⟩
    · exact relaxShape_of_parts (nm "vasprun.xml") (nm "2") (nm ".gz") _ (by decide)
        ⟨by decide, by decide, by decide, by decide, by decide⟩
    · exact absurd hglob (by decide)
    · exact relaxShape_of_parts (nm "KPOINTS") (nm "2") (nm "") _ (by decide)
        ⟨by decide, by decide, by decide, by decide, by decide⟩
  refine ⟨by decide, ?_⟩
  exact C2_copy_selects_highest [nm "INCAR.relax1", nm "INCAR.relax2.gz",
    nm "OUTCAR.relax2", nm "CONTCAR.relax2", nm "vasprun.xml.relax2.gz", nm "POTCAR",
    nm "KPOINTS.relax2"] [] ['2'] hWF
    ⟨List.nodup_nil, fun a ha => absurd ha (List.not_mem_nil a)⟩ (by decide) (by decide)
    (by decide)
    ⟨[nm "INCAR.relax2.gz", nm "OUTCAR.relax2", nm "CONTCAR.relax2",
      nm "vasprun.xml.relax2.gz", nm "POTCAR", nm "KPOINTS.relax2"],
      [(nm "INCAR", nm "INCAR.relax2.gz"), (nm "OUTCAR", nm "OUTCAR.relax2"),
        (nm "CONTCAR", nm "CONTCAR.relax2"),
        (nm "vasprun.xml", nm "vasprun.xml.relax2.gz"), (nm "POTCAR", nm "POTCAR"),
        (nm "KPOINTS", nm "KPOINTS.relax2")]⟩ (by decide)

/-- Whether a `copy_vasp_outputs` run raised a `FileNotFoundError`. -/
def raisesFNF (r : Except CopyErr CopyResult) : Bool :=
  match r with
  | .error e => e.isFNF
  | .ok _ => false

/-- A listing with no `"*.relax*"` file is trivially well formed. -/
theorem noGlobWF (listing : List Name) (h : listing.all (fun f => !globRelax f) = true) :
    ∀ f ∈ listing, globRelax f = true → RelaxShape f := by
  intro f hf hg
  rw [List.all_eq_true] at h
  have h2 := h f hf
  rw [hg] at h2
  cases h2

theorem no_potcar_in_kpoints (listing : List Name) (ext k : Name) (hshape : ExtShape ext)
    (hz : get_zfile listing (nm "KPOINTS" ++ ext) = some k) :
    containsSub (nm "POTCAR") k = false := by
  have main : ∀ t : Name, (∀ c0, t.head? = some c0 → c0 = '.') → ('P' ∉ t) →
      containsSub (nm "POTCAR") (nm "KPOINTS" ++ t) = false := by
    intro t hh hP
    refine containsSub_append_free _ _ _ (by decide) ?_ (straddle_free_of_head _ _ ?_)
    · by_contra hcon
      rw [Bool.not_eq_false] at hcon
      exact hP (mem_of_containsSub _ _ hcon 'P' (by decide))
    · intro u0 hu0 c0 hc0
      rw [hh c0 hc0]
      revert u0
      decide
  have hPnotext : ∀ ds : Name, (∀ c ∈ ds, c.isDigit = true) → 'P' ∉ dotRelax ++ ds := by
    intro ds hdig hP
    rcases List.mem_append.1 hP with h | h
    · revert h
      decide
    · exact absurd (hdig 'P' h) (by decide)
  obtain ⟨-, hf | hf⟩ := get_zfile_eq _ _ _ hz
  · subst hf
    rcases hshape with rfl | ⟨ds, rfl, -, hdig⟩
    · rw [List.append_nil]
      decide
    · exact main (dotRelax ++ ds) (fun c0 hc0 => by simpa [dotRelax] using hc0.symm)
        (hPnotext ds hdig)
  · subst hf
    rcases hshape with rfl | ⟨ds, rfl, -, hdig⟩
    · rw [List.append_nil]
      exact main gzChars (fun c0 hc0 => by simpa [gzChars] using hc0.symm) (by decide)
    · rw [List.append_assoc]
      refine main ((dotRelax ++ ds) ++ gzChars) ?_ ?_
      · intro c0 hc0
        simpa [dotRelax] using hc0.symm
      · intro hP
        rcases List.mem_append.1 hP with h | h
        · exact hPnotext ds hdig h
        · revert h
          decide

/-- C4 (amended): given a well-formed listing and additional files, and all
required files present, `copy_vasp_outputs` raises `FileNotFoundError` if
and only if the listing holds no POTCAR-type file, and that error is the
explicit "Could not find POTCAR" one; a missing KPOINTS file is harmless
(the hypotheses never mention it).  Separately, a missing required file
(e.g. INCAR) also raises a `FileNotFoundError`, which is what falsifies the
claim's unconditional "if and only if". -/
theorem C4_fnf_conditions (listing additional : List Name) (ctp : Bool) (ext : Name)
    (hWF : ∀ f ∈ listing, globRelax f = true → RelaxShape f)
    (hadd : CleanAdd additional)
    (hgle : get_largest_relax_extension listing = some ext) :
    ((∀ b ∈ coreBases ++ additional, (get_zfile listing (b ++ ext)).isSome = true) →
      (raisesFNF (copy_vasp_outputs listing additional ctp) = true ↔
        hasPotcarFile listing = false) ∧
      (hasPotcarFile listing = false →
        copy_vasp_outputs listing additional ctp = .error .potcarNotFound)) ∧
    ((∃ b ∈ coreBases ++ additional, get_zfile listing (b ++ ext) = none) →
      ∃ n, copy_vasp_outputs listing additional ctp = .error (.fileNotFound n)) := by
  have hshape := gle_ExtShape listing hWF ext hgle
  constructor
  · intro hreq
    have herr : hasPotcarFile listing = false →
        copy_vasp_outputs listing additional ctp = .error .potcarNotFound := by
      intro hpf
      obtain ⟨req, hok⟩ := requiredVaspFiles_total listing ext _ hreq
      have hcheck : (((optionalNamesFor ext).filterMap (get_zfile listing)).all
          (fun f => !containsSub (nm "POTCAR") f)) = true := by
        rw [List.all_eq_true]
        intro f hf
        rw [List.mem_filterMap] at hf
        obtain ⟨n, hn, hz⟩ := hf
        rw [optionalNamesFor] at hn
        simp only [List.mem_cons, List.not_mem_nil, or_false] at hn
        rw [hasPotcarFile, Bool.or_eq_false_iff] at hpf
        rcases hn with rfl | rfl | rfl
        · exfalso
          have := hpf.1
          rw [hz] at this
          cases this
        · exfalso
          have := hpf.2
          rw [hz] at this
          cases this
        · rw [Bool.not_eq_true']
          exact no_potcar_in_kpoints listing ext f hshape hz
      simp only [copy_vasp_outputs, hgle, hok, hcheck, if_true]
    refine ⟨⟨?_, ?_⟩, herr⟩
    · intro hfnf
      by_contra hpotne
      rw [Bool.not_eq_false] at hpotne
      obtain ⟨req, -, hcvo, -⟩ :=
        cvo_spec listing additional ext ctp hadd hgle hshape hreq hpotne
      rw [hcvo] at hfnf
      simp [raisesFNF] at hfnf
    · intro hpf
      rw [herr hpf]
      rfl
  · rintro ⟨b, hb, hz⟩
    obtain ⟨n, hn⟩ := requiredVaspFiles_err listing ext _ ⟨b, hb, hz⟩
    exact ⟨n, by simp only [copy_vasp_outputs, hgle, hn]⟩

/-- Counterexample to C4 as stated: on the directory `["POTCAR"]` the
function raises a `FileNotFoundError` (for the missing INCAR) although a
POTCAR-type file is present, so "raises FileNotFoundError iff no
POTCAR-type file" is false. -/
theorem C4_fnf_iff_cex :
    ¬ ((raisesFNF (copy_vasp_outputs [nm "POTCAR"] [] true) = true) ↔
      hasPotcarFile [nm "POTCAR"] = false) := by
  decide

/-- Witness for C4 (amended) on a directory missing both POTCAR and
KPOINTS. -/
theorem C4_fnf_conditions_witness :
    (hasPotcarFile [nm "INCAR", nm "OUTCAR", nm "CONTCAR", nm "vasprun.xml"] = false) ∧
    copy_vasp_outputs [nm "INCAR", nm "OUTCAR", nm "CONTCAR", nm "vasprun.xml"] [] true =
      .error .potcarNotFound := by
  have h := C4_fnf_conditions [nm "INCAR", nm "OUTCAR", nm "CONTCAR", nm "vasprun.xml"]
    [] true [] (noGlobWF _ (by decide)) ⟨List.nodup_nil, fun a ha => absurd ha (List.not_mem_nil a)⟩
    (by decide)
  exact ⟨by decide, (h.1 (by decide)).2 (by decide)⟩

/-- C10 (amended): when `contcar_to_poscar` is true and POSCAR is not
explicitly requested through `additional_vasp_files` (enforced by
`CleanAdd`), a successful `copy_vasp_outputs` ends with a destination POSCAR
whose source is the file selected for CONTCAR (with the highest relax
extension), and the source directory's POSCAR file is not among the copied
files. -/
theorem C10_contcar_to_poscar (listing additional : List Name) (ext : Name)
    (hWF : ∀ f ∈ listing, globRelax f = true → RelaxShape f)
    (hadd : CleanAdd additional)
    (hgle : get_largest_relax_extension listing = some ext)
    (hreq : ∀ b ∈ coreBases ++ additional, (get_zfile listing (b ++ ext)).isSome = true)
    (hpot : hasPotcarFile listing = true) :
    ∃ res, copy_vasp_outputs listing additional true = .ok res ∧
      (∃ ksrc, (nm "POSCAR", ksrc) ∈ res.dest ∧
        get_zfile listing (nm "CONTCAR" ++ ext) = some ksrc) ∧
      (∀ k ∈ res.copied, gunzipName k ≠ nm "POSCAR") ∧
      (∀ e ∈ res.dest, gunzipName e.2 ≠ nm "POSCAR") := by
  have hshape := gle_ExtShape listing hWF ext hgle
  obtain ⟨req, hok, hcvo, hsel⟩ :=
    cvo_spec listing additional ext true hadd hgle hshape hreq hpot
  refine ⟨_, hcvo, ?_, ?_, ?_⟩
  · obtain ⟨kc, hkc, hzc⟩ := forall2_mem_left (requiredVaspFiles_ok listing ext _ req hok)
      (nm "CONTCAR") (List.mem_append.2 (Or.inl (by decide)))
    have hs : SelSpec listing ext additional (nm "CONTCAR") ext kc :=
      ⟨hzc, by decide, Or.inl ⟨rfl, Or.inl (by decide)⟩⟩
    have hv := selspec_val_eq listing ext additional hshape (nm "CONTCAR") ext kc hs
    refine ⟨kc, ?_, hzc⟩
    refine List.mem_map.2 ⟨kc, List.mem_append.2 (Or.inl hkc), ?_⟩
    rw [if_pos ⟨rfl, hv⟩]
  · intro k hk
    obtain ⟨b, e, hs⟩ := hsel k hk
    have hkey := (selspec_key_eq listing ext additional hshape b e k hs).1
    rw [hkey]
    obtain ⟨-, -, hkind⟩ := hs
    rcases hkind with ⟨rfl, hm⟩ | ⟨rfl, hm⟩
    · rcases hshape with rfl | ⟨ds, rfl, -, -⟩
      · rw [List.append_nil]
        exact (bases_ne_special additional hadd b hm).2.2
      · intro hcon
        have := relax_in_base_ext b ds
        rw [hcon] at this
        exact absurd this (by decide)
    · rw [List.append_nil]
      rcases hm with rfl | rfl
      · decide
      · decide
  · intro e he
    obtain ⟨k, hkmem, hkeq⟩ := List.mem_map.1 he
    intro hcon
    obtain ⟨b, e', hs⟩ := hsel k hkmem
    have hkey := (selspec_key_eq listing ext additional hshape b e' k hs).1
    rw [← hkeq] at hcon
    dsimp only at hcon
    rw [hkey] at hcon
    obtain ⟨-, -, hkind⟩ := hs
    rcases hkind with ⟨rfl, hm⟩ | ⟨rfl, hm⟩
    · rcases hshape with rfl | ⟨ds, rfl, -, -⟩
      · rw [List.append_nil] at hcon
        exact (bases_ne_special additional hadd b hm).2.2 hcon
      · have := relax_in_base_ext b ds
        rw [hcon] at this
        exact absurd this (by decide)
    · rw [List.append_nil] at hcon
      rcases hm with rfl | rfl
      · exact absurd hcon (by decide)
      · exact absurd hcon (by decide)

/-- Counterexample to C10 as stated: requesting `"POSCAR"` in
`additional_vasp_files` makes `copy_vasp_outputs` copy the source POSCAR. -/
theorem C10_poscar_copied_cex :
    copy_vasp_outputs [nm "INCAR", nm "OUTCAR", nm "CONTCAR", nm "vasprun.xml",
      nm "POTCAR", nm "POSCAR"] [nm "POSCAR"] true = .ok
      ⟨[nm "INCAR", nm "OUTCAR", nm "CONTCAR", nm "vasprun.xml", nm "POSCAR", nm "POTCAR"],
        [(nm "INCAR", nm "INCAR"), (nm "OUTCAR", nm "OUTCAR"),
          (nm "POSCAR", nm "CONTCAR"), (nm "vasprun.xml", nm "vasprun.xml"),
          (nm "POTCAR", nm "POTCAR")]⟩ ∧
    nm "POSCAR" ∈ [nm "INCAR", nm "OUTCAR", nm "CONTCAR", nm "vasprun.xml",
      nm "POSCAR", nm "POTCAR"] := by
  decide

/-- Witness for C10 (amended) on a plain directory. -/
theorem C10_contcar_to_poscar_witness :
    ∃ res, copy_vasp_outputs [nm "INCAR", nm "OUTCAR", nm "CONTCAR", nm "vasprun.xml",
      nm "POTCAR"] [] true = .ok res ∧
      (∃ ksrc, (nm "POSCAR", ksrc) ∈ res.dest ∧
        get_zfile [nm "INCAR", nm "OUTCAR", nm "CONTCAR", nm "vasprun.xml", nm "POTCAR"]
          (nm "CONTCAR" ++ []) = some ksrc) ∧
      (∀ k ∈ res.copied, gunzipName k ≠ nm "POSCAR") ∧
      (∀ e ∈ res.dest, gunzipName e.2 ≠ nm "POSCAR") :=
  C10_contcar_to_poscar [nm "INCAR", nm "OUTCAR", nm "CONTCAR", nm "vasprun.xml",
    nm "POTCAR"] [] [] (noGlobWF _ (by decide))
    ⟨List.nodup_nil, fun a ha => absurd ha (List.not_mem_nil a)⟩ (by decide) (by decide)
    (by decide)

/-- C6 (amended): every source-side operation of `copy_vasp_outputs` runs
against `src_host` (with `none` the local filesystem) on the path obtained
by stripping a `"host:"` prefix from `src_dir`; a hostname embedded in
`src_dir` is discarded, not honoured. -/
theorem C6_host_handling (fs : Option Name → Name → List Name) (hp p : Name)
    (host : Option Name) (additional : List Name) (ctp : Bool)
    (hhp : ∀ c ∈ hp, c ≠ ':') :
    copy_vasp_outputs_hosted fs (hp ++ ':' :: p) host additional ctp =
      copy_vasp_outputs (fs host p) additional ctp := by
  have hdrop : (hp ++ ':' :: p).dropWhile (· ≠ ':') = ':' :: p := by
    induction hp with
    | nil => simp [List.dropWhile]
    | cons c hp ih =>
      have hc : c ≠ ':' := hhp c (by simp)
      rw [List.cons_append, List.dropWhile_cons, if_pos (by simp [hc])]
      exact ih (fun c' hc' => hhp c' (by simp [hc']))
  have hstrip : strip_hostname (hp ++ ':' :: p) = p := by
    rw [strip_hostname, if_pos, hdrop]
    · rfl
    · rw [containsSub_singleton]
      exact List.mem_append.2 (Or.inr (by simp))
  rw [copy_vasp_outputs_hosted, hstrip]

/-- A two-host demonstration filesystem: the local host has a populated
`"dir"`, every other location is empty. -/
def demoFs (h : Option Name) (d : Name) : List Name :=
  if h = none ∧ d = nm "dir"
  then [nm "INCAR", nm "OUTCAR", nm "CONTCAR", nm "vasprun.xml", nm "POTCAR"]
  else []

/-- Counterexample to C6 as stated: with `src_dir = "remote:dir"` and
`src_host = None`, the code strips and ignores the embedded hostname and
reads the local `"dir"`; honouring the hostname would have used the remote
listing (empty here) and failed. -/
theorem C6_embedded_host_cex :
    copy_vasp_outputs_hosted demoFs (nm "remote:dir") none [] true = .ok
      ⟨[nm "INCAR", nm "OUTCAR", nm "CONTCAR", nm "vasprun.xml", nm "POTCAR"],
        [(nm "INCAR", nm "INCAR"), (nm "OUTCAR", nm "OUTCAR"),
          (nm "POSCAR", nm "CONTCAR"), (nm "vasprun.xml", nm "vasprun.xml"),
          (nm "POTCAR", nm "POTCAR")]⟩ ∧
    copy_vasp_outputs (demoFs (some (nm "remote")) (nm "dir")) [] true =
      .error (.fileNotFound (nm "INCAR")) := by
  constructor
  · decide
  · decide

/-- Witness for C6 (amended) on a concrete remote-looking path. -/
theorem C6_host_handling_witness :
    copy_vasp_outputs_hosted demoFs (nm "remote" ++ ':' :: nm "dir") none [] true =
      copy_vasp_outputs (demoFs none (nm "dir")) [] true :=
  C6_host_handling demoFs (nm "remote") (nm "dir") none [] true (by decide)

end Atomate2
